import Mathlib

/-!
# Verification of the Mu lock-free container library (sequential semantics)

This file is a shallow embedding of the core of the Mu repository:

* the tagged-pointer module (`mu/lf/tag.h`): 16-bit tags in the high bits of a
  64-bit pointer word, wrapping modulo 2^16;
* the intrusive Treiber stack (`mu::lf::impl::stack`): push/pop by CAS on a
  tagged head word;
* the public lock-free stack (`mu::lf::stack`), a pool-backed value stack built
  on two intrusive stacks;
* the Michael–Scott queue (`mu::lf::queue`), with a sentinel head, a
  free-node pool, and capacity accounting;
* the binary min-heap (`mu::alg::heap`) over a random-access sequence.

Machine pointers are modelled as abstract node identifiers (`Nat`) together
with an explicit heap (an association list from identifiers to nodes); a
tagged pointer word is the pair of an optional identifier (the untagged
address, `none` = null) and a tag.  All executions modelled here are
single-threaded, so every `compare_exchange_strong` whose expected value was
read from the location itself succeeds; the retry loops of the source are kept
(with explicit fuel) and the loop bodies follow the source line by line.
Operations that can raise (allocation, T's copy/move assignment) take the
raising behaviour as an explicit boolean/occurrence parameter and return
`Except`, where `.error σ` means the exception propagates leaving state `σ`.
-/

set_option autoImplicit false

namespace Mu

/-- The constant 2^16, the number of distinct tag values on x86-64 (`tag_t` = `uint16_t`,
`TAG_SHIFT_COUNT` = 48). -/
def TAG_MOD : Nat := 65536

/-- A tagged pointer word: the untagged address (a node identifier, `none` for
null) together with the 16-bit tag held in the high bits of the same word.
Equality of two `TW`s is equality of the whole machine word (address AND
tag), exactly as `std::atomic<node*>::compare_exchange_strong` and
`operator==` compare full words. -/
structure TW where
  addr : Option Nat
  tag : Nat
deriving DecidableEq, Repr

/-- The null pointer word (`nullptr`): address null, tag bits zero. -/
def nullTW : TW := ⟨none, 0⟩

/-- Embeds `mu::lf::tag(p, t)`: same address, tag replaced by `t` truncated to
16 bits (the `tag_t` cast wraps modulo 2^16). -/
def tagWith (w : TW) (t : Nat) : TW := ⟨w.addr, t % TAG_MOD⟩

/-- Embeds `mu::lf::inctag(p)` / `tagged_ptr::increment_tag()`:
`tag(p, get_tag(p) + 1)`. -/
def inctag (w : TW) : TW := tagWith w (w.tag + 1)

/-- A container node: one value of the user type and one tagged `next_` word
(`mu::lf::queue<T>::node` and `mu::lf::stack<T>::node` have this shape). -/
structure Node (α : Type) where
  value : α
  next : TW
deriving DecidableEq, Repr

/-- The node heap: an association list from node identifiers to nodes.  It
stands for the set of nodes currently allocated with `new` and not yet
`delete`d. -/
abbrev Heap (α : Type) := List (Nat × Node α)

/-- Dereference an identifier in the heap (first entry wins). -/
def hLookup {α : Type} : Heap α → Nat → Option (Node α)
  | [], _ => none
  | p :: ps, i => if p.1 = i then some p.2 else hLookup ps i

/-- Store to the `next_` field of node `i` (`untag(p)->next_ = w`). -/
def hSetNext {α : Type} (hp : Heap α) (i : Nat) (w : TW) : Heap α :=
  hp.map fun p => if p.1 = i then (p.1, { p.2 with next := w }) else p

/-- Store to the `value_` field of node `i` (`untag(p)->value_ = v`). -/
def hSetValue {α : Type} (hp : Heap α) (i : Nat) (v : α) : Heap α :=
  hp.map fun p => if p.1 = i then (p.1, { p.2 with value := v }) else p

/-- Model of deleting node `i` with the `delete` operator: remove it from the heap. -/
def hRemove {α : Type} (hp : Heap α) (i : Nat) : Heap α :=
  hp.filter fun p => p.1 ≠ i

/-- Read `untag(w)->next_`; reading through null is unreachable in the source
(it would fault) and is mapped to the null word. -/
def nextAt {α : Type} (hp : Heap α) (w : TW) : TW :=
  match w.addr with
  | none => nullTW
  | some i =>
    match hLookup hp i with
    | some nd => nd.next
    | none => nullTW

/-- Read `untag(w)->value_`; the null/dangling case is unreachable in the
source and is mapped to the default value. -/
def valAtW {α : Type} [Inhabited α] (hp : Heap α) (w : TW) : α :=
  match w.addr with
  | none => default
  | some i =>
    match hLookup hp i with
    | some nd => nd.value
    | none => default

/-- Read the value of node `i`. -/
def valAt {α : Type} [Inhabited α] (hp : Heap α) (i : Nat) : α :=
  match hLookup hp i with
  | some nd => nd.value
  | none => default

/-! ## The intrusive Treiber stack (`mu::lf::impl::stack<T>`)

State: the heap of nodes plus the tagged `head_` word.  Single-threaded, the
snapshot `h = head_` is still current at the CAS, so the CAS succeeds on the
first iteration; the loop body below is that first (successful) iteration of
the source loop. -/

/-- Embeds `impl::stack<T>::push(e)`: `untag(e)->next_ = h; cas(head_, h, inctag(e))`.
Returns the updated heap and the new head word.  Note the installed word is
`inctag e` — the *pushed node's own* tag incremented — exactly as in
`part_005` (`inctag(e)`) and `impl/stack.h` (`e.increment_tag()`). -/
def isPush {α : Type} (hp : Heap α) (hd : TW) (e : TW) : Heap α × TW :=
  match e.addr with
  | some i => (hSetNext hp i hd, inctag e)
  | none => (hp, inctag e)

/-- Embeds `impl::stack<T>::pop(e)`: snapshot `h = head_`; if null return `none`;
else `n = untag(h)->next_`, `cas(head_, h, inctag(n))`, return the popped
word `h`.  Result: `(unchanged heap, new head word, popped word)`. -/
def isPop {α : Type} (hp : Heap α) (hd : TW) : Option (Heap α × TW × TW) :=
  match hd.addr with
  | none => none
  | some _ => some (hp, inctag (nextAt hp hd), hd)

/-! ## The Michael–Scott queue (`mu::lf::queue<T>`, part_003)

The queue of `part_003` holds `std::atomic<size_t> capacity_`, tagged words
`head_` and `tail_`, and `stack<node*> free_` — the *public* `mu::lf::stack`
used with `T = node*`, i.e. a lock-free stack of pointer **values**.  Its
observable single-threaded behaviour is a LIFO of tagged-pointer values
(`push` = place on top, `pop` = take the top), which is how it is modelled
here: `free : List TW`, head of the list on top.  The pool never touches the
queue nodes' own `next_` fields. -/

/-- Queue state: capacity counter, sentinel `head_`, `tail_`, the free-pool
stack of node-pointer values, the node heap, and the allocator's next fresh
identifier. -/
structure QS (α : Type) where
  capacity : Nat
  head : TW
  tail : TW
  free : List TW
  hp : Heap α
  nextId : Nat
deriving DecidableEq, Repr

/-- Embeds `queue<T>::alloc_node()`: pop the free stack; if it is empty,
`new node()` (a fresh untagged pointer to a default-constructed node) and
`++capacity_`. -/
def allocNode {α : Type} [Inhabited α] (σ : QS α) : QS α × TW :=
  match σ.free with
  | e :: rest => ({ σ with free := rest }, e)
  | [] =>
    ({ σ with
        hp := σ.hp ++ [(σ.nextId, ⟨default, nullTW⟩)]
        nextId := σ.nextId + 1
        capacity := σ.capacity + 1 },
      ⟨some σ.nextId, 0⟩)

/-- Embeds `queue<T>::free_node(e)`: `free_.push(e)`. -/
def freeNode {α : Type} (σ : QS α) (e : TW) : QS α :=
  { σ with free := e :: σ.free }

/-- Write `untag(w)->value_ = v` in a queue state. -/
def qSetValue {α : Type} (σ : QS α) (w : TW) (v : α) : QS α :=
  match w.addr with
  | some i => { σ with hp := hSetValue σ.hp i v }
  | none => σ

/-- Write `untag(w)->next_ = x` in a queue state. -/
def qSetNext {α : Type} (σ : QS α) (w : TW) (x : TW) : QS α :=
  match w.addr with
  | some i => { σ with hp := hSetNext σ.hp i x }
  | none => σ

/-- One execution of the `queue<T>::enqueue` retry loop (part_003 lines
213–231) plus the final tail swing (line 234), single-threaded: the
consistency re-read `tail != tail_` never fires and every CAS whose expected
value is the current one succeeds.
* snapshot `tail = tail_`, `next = untag(tail)->next_`;
* if `untag(next) == nullptr`: link `cas(untag(tail)->next_, next,
  tag(n, get_tag(next)+1))`, break, then swing
  `cas(tail_, tail, tag(n, get_tag(tail)+1))`;
* else help: `cas(tail_, tail, tag(next, get_tag(tail)+1))` and retry. -/
def enqLoop {α : Type} : Nat → QS α → TW → QS α
  | 0, σ, _ => σ
  | fuel + 1, σ, n =>
    let tl := σ.tail
    let nx := nextAt σ.hp tl
    if nx.addr = none then
      let σ' := qSetNext σ tl (tagWith n (nx.tag + 1))
      { σ' with tail := tagWith n (tl.tag + 1) }
    else
      enqLoop fuel { σ with tail := tagWith nx (tl.tag + 1) } n

/-- Embeds `queue<T>::enqueue(n)`: `untag(n)->next_ = nullptr`, then the CAS loop.
The fuel bound covers the longest possible helping walk. -/
def enqueue {α : Type} (σ : QS α) (n : TW) : QS α :=
  enqLoop (σ.hp.length + 1) (qSetNext σ n nullTW) n

/-- One execution of the `queue<T>::dequeue` retry loop (part_003 lines
254–285), single-threaded:
* snapshot `h = head_`, `t = tail_`, `n = untag(h)->next_`
  (the `h != head_` re-check never fires);
* if `h == t` (whole-word): if `untag(n) == nullptr` the queue is empty,
  else help `cas(tail_, t, tag(n, get_tag(t)+1))` and retry;
* else `value = untag(n)->value_`, `cas(head_, h, tag(n, get_tag(h)+1))`
  succeeds, `free_node(old h)`. -/
def deqLoop {α : Type} [Inhabited α] : Nat → QS α → QS α × Option α
  | 0, σ => (σ, none)
  | fuel + 1, σ =>
    let h := σ.head
    let t := σ.tail
    let n := nextAt σ.hp h
    if h = t then
      if n.addr = none then (σ, none)
      else deqLoop fuel { σ with tail := tagWith n (t.tag + 1) }
    else
      let v := valAtW σ.hp n
      let σ' := { σ with head := tagWith n (h.tag + 1) }
      (freeNode σ' h, some v)

/-- Embeds `queue<T>::dequeue(value)` (and `pop`): the retry loop with enough fuel
for the longest possible helping walk.  Returns the final state and
`some value` on success, `none` on empty. -/
def dequeue {α : Type} [Inhabited α] (σ : QS α) : QS α × Option α :=
  deqLoop (σ.hp.length + 1) σ

/-- The shared successful path of `queue<T>::push` and `queue<T>::emplace`:
acquire a node, write the value into it, enqueue it. -/
def qpush {α : Type} [Inhabited α] (σ : QS α) (v : α) : QS α :=
  let p := allocNode σ
  enqueue (qSetValue p.1 p.2 v) p.2

/-- Embeds `queue<T>::push(const T&)` with an explicit flag saying whether
`untag(n)->value_ = value` (T's copy assignment) raises.  On raise the
source frees the node back to the pool and rethrows (part_003 lines 183–190):
`.error σ'` is the propagated exception with post-state `σ'`. -/
def pushT {α : Type} [Inhabited α] (σ : QS α) (v : α) (throws : Bool) :
    Except (QS α) (QS α) :=
  let p := allocNode σ
  if throws then .error (freeNode p.1 p.2)
  else .ok (enqueue (qSetValue p.1 p.2 v) p.2)

/-- Embeds `queue<T>::emplace(T&&)` with an explicit flag saying whether
`untag(n)->value_ = std::move(value)` raises.  On raise the source does
`delete n` — it removes the node instead of returning it to the pool
(part_003 lines 196–203) — and rethrows. -/
def emplaceT {α : Type} [Inhabited α] (σ : QS α) (v : α) (throws : Bool) :
    Except (QS α) (QS α) :=
  let p := allocNode σ
  if throws then
    .error (match p.2.addr with
      | some i => { p.1 with hp := hRemove p.1.hp i }
      | none => p.1)
  else .ok (enqueue (qSetValue p.1 p.2 v) p.2)

/-- Embeds `queue<T>::empty()`: `head_ == tail_`, a whole-word comparison of the two
tagged words. -/
def qEmpty {α : Type} (σ : QS α) : Bool :=
  decide (σ.head = σ.tail)

/-- The provisioning loop of the queue constructor (part_003 lines 141–143):
`for (i = 0; i < n; ++i) free_.push(new node());`. -/
def provision {α : Type} [Inhabited α] : Nat → QS α → QS α
  | 0, σ => σ
  | k + 1, σ =>
    let σ' :=
      freeNode
        { σ with
            hp := σ.hp ++ [(σ.nextId, ⟨default, nullTW⟩)]
            nextId := σ.nextId + 1 }
        ⟨some σ.nextId, 0⟩
    provision k σ'

/-- Embeds `queue<T>::queue(n)` without failures: `capacity_ = n`, provision `n`
nodes into the pool, then `node* s = alloc_node(); head_ = s; tail_ = s;`.
The sentinel is acquired through `alloc_node`, so for `n > 0` it comes *out
of* the pool just provisioned. -/
def qInit (α : Type) [Inhabited α] (n : Nat) : QS α :=
  let σ1 := provision n ⟨n, nullTW, nullTW, [], [], 0⟩
  let p := allocNode σ1
  { p.1 with head := p.2, tail := p.2 }

/-- Embeds `queue<T>::destroy()`: `while (!free_.empty()) { free_.pop(n);
delete untag(n); }` — drain the pool, deleting each pooled node. -/
def qDestroy {α : Type} (σ : QS α) : QS α :=
  { σ with
      free := []
      hp := σ.free.foldl
        (fun hp e =>
          match e.addr with
          | some i => hRemove hp i
          | none => hp)
        σ.hp }

/-- The provisioning loop with an allocation-failure point: the `idx`-th
evaluation of `new node()` (counting from 0 across the whole construction)
throws when `idx = failAt`.  `.error σ` = the exception escaped the loop
with state `σ`. -/
def provisionF {α : Type} [Inhabited α] (failAt : Nat) :
    Nat → Nat → QS α → Except (QS α) (QS α × Nat)
  | 0, idx, σ => .ok (σ, idx)
  | k + 1, idx, σ =>
    if idx = failAt then .error σ
    else
      provisionF failAt k (idx + 1)
        (freeNode
          { σ with
              hp := σ.hp ++ [(σ.nextId, ⟨default, nullTW⟩)]
              nextId := σ.nextId + 1 }
          ⟨some σ.nextId, 0⟩)

/-- Embeds `queue<T>::queue(n)` with an allocation-failure point `failAt` (the
`failAt`-th `new node()` raises `std::bad_alloc`): the whole body runs inside
`try { ... } catch (...) { destroy(); throw; }`, so on failure all pooled
nodes are deleted and the exception is rethrown (`.error`). -/
def qInitF (α : Type) [Inhabited α] (n failAt : Nat) : Except (QS α) (QS α) :=
  match provisionF failAt n 0 ⟨n, nullTW, nullTW, [], [], 0⟩ with
  | .error σ => .error (qDestroy σ)
  | .ok (σ1, idx) =>
    match σ1.free with
    | e :: rest => .ok { σ1 with free := rest, head := e, tail := e }
    | [] =>
      if idx = failAt then .error (qDestroy σ1)
      else
        let σ2 : QS α :=
          { σ1 with
              hp := σ1.hp ++ [(σ1.nextId, ⟨default, nullTW⟩)]
              nextId := σ1.nextId + 1
              capacity := σ1.capacity + 1 }
        .ok { σ2 with head := ⟨some σ1.nextId, 0⟩, tail := ⟨some σ1.nextId, 0⟩ }

/-- Walk a chain of `next_` links from a word, collecting untagged addresses
(fuel-bounded; used to state chain lengths on concrete states). -/
def walkQ {α : Type} (hp : Heap α) : Nat → TW → List Nat
  | 0, _ => []
  | fuel + 1, w =>
    match w.addr with
    | none => []
    | some i => i :: walkQ hp fuel (nextAt hp w)

/-- Unpack an `Except` result to its carried state (used to inspect the
post-exception state at concrete inputs). -/
def exState {α : Type} : Except (QS α) (QS α) → QS α
  | .error σ => σ
  | .ok σ => σ

/-- True iff the operation raised (the `.error` constructor: the source
exception propagated to the caller). -/
def raised {α : Type} : Except (QS α) (QS α) → Bool
  | .error _ => true
  | .ok _ => false

/-! ## The public lock-free stack (`mu::lf::stack<T>`, part_006)

Two intrusive stacks over the same node heap: `free_` (the node pool) and
`stack_` (the LIFO itself). -/

/-- Public stack state: the `stack_` head word, the `free_` head word, the
node heap, and the allocator counter. -/
structure SS (α : Type) where
  stackHd : TW
  freeHd : TW
  hp : Heap α
  nextId : Nat
deriving DecidableEq, Repr

/-- Embeds `stack<T>::push(const T& v)` (part_006 lines 112–121):
`if (!free_.pop(n)) n = new node(v); n->value_ = v; stack_.push(n);`. -/
def spush {α : Type} [Inhabited α] (σ : SS α) (v : α) : SS α :=
  match isPop σ.hp σ.freeHd with
  | some (hp', fh', n) =>
    let hp2 := match n.addr with
      | some i => hSetValue hp' i v
      | none => hp'
    let pr := isPush hp2 σ.stackHd n
    { σ with hp := pr.1, freeHd := fh', stackHd := pr.2 }
  | none =>
    let hp1 := σ.hp ++ [(σ.nextId, ⟨v, nullTW⟩)]
    let n : TW := ⟨some σ.nextId, 0⟩
    let hp2 := hSetValue hp1 σ.nextId v
    let pr := isPush hp2 σ.stackHd n
    { σ with hp := pr.1, stackHd := pr.2, nextId := σ.nextId + 1 }

/-- Embeds `stack<T>::pop(T& out)` (part_006 lines 145–155): pop `stack_`; on
success `out = n->value_; n->value_ = T();`.  (The popped node is neither
deleted nor returned to `free_` by this code.) -/
def spop {α : Type} [Inhabited α] (σ : SS α) : SS α × Option α :=
  match isPop σ.hp σ.stackHd with
  | none => (σ, none)
  | some (hp', hd', n) =>
    let v := valAtW hp' n
    let hp2 := match n.addr with
      | some i => hSetValue hp' i default
      | none => hp'
    ({ σ with hp := hp2, stackHd := hd' }, some v)

/-- Embeds `stack<T>::emplace(T&& v)` (part_006 lines 123–143) with an explicit flag
saying whether `n->value_ = std::move(v)` raises.  The source catches the
exception and does **not** rethrow: if the node was freshly allocated it is
`delete`d, otherwise it is pushed back onto `free_`; either way the function
returns normally, which is why the result type has no error channel. -/
def sEmplaceT {α : Type} [Inhabited α] (σ : SS α) (v : α) (throws : Bool) :
    SS α :=
  match isPop σ.hp σ.freeHd with
  | some (hp', fh', n) =>
    let σ1 : SS α := { σ with hp := hp', freeHd := fh' }
    if throws then
      let pr := isPush σ1.hp σ1.freeHd n
      { σ1 with hp := pr.1, freeHd := pr.2 }
    else
      let hp2 := match n.addr with
        | some i => hSetValue σ1.hp i v
        | none => σ1.hp
      let pr := isPush hp2 σ1.stackHd n
      { σ1 with hp := pr.1, stackHd := pr.2 }
  | none =>
    let hp1 := σ.hp ++ [(σ.nextId, ⟨v, nullTW⟩)]
    let n : TW := ⟨some σ.nextId, 0⟩
    let σ1 : SS α := { σ with hp := hp1, nextId := σ.nextId + 1 }
    if throws then
      { σ1 with hp := hRemove σ1.hp σ.nextId }
    else
      let hp2 := hSetValue σ1.hp σ.nextId v
      let pr := isPush hp2 σ1.stackHd n
      { σ1 with hp := pr.1, stackHd := pr.2 }

/-- The provisioning loop of the stack constructor (part_006 lines 90–93):
`for (i = 0; i < k; ++i) free_.push(new node());`. -/
def sProvision {α : Type} [Inhabited α] : Nat → SS α → SS α
  | 0, σ => σ
  | k + 1, σ =>
    let hp1 := σ.hp ++ [(σ.nextId, ⟨(default : α), nullTW⟩)]
    let pr := isPush hp1 σ.freeHd ⟨some σ.nextId, 0⟩
    sProvision k { σ with hp := pr.1, freeHd := pr.2, nextId := σ.nextId + 1 }

/-- Embeds `stack<T>::stack(k)` without failures. -/
def sInit (α : Type) [Inhabited α] (k : Nat) : SS α :=
  sProvision k ⟨nullTW, nullTW, [], 0⟩

/-- Embeds `stack<T>::destroy()` (part_006 lines 101–110):
`while (free_.pop(n)) delete n;` — drain the pool, deleting each node. -/
def sDrain {α : Type} : Nat → SS α → SS α
  | 0, σ => σ
  | f + 1, σ =>
    match isPop σ.hp σ.freeHd with
    | none => σ
    | some (hp', fh', e) =>
      sDrain f
        { σ with
            freeHd := fh'
            hp := match e.addr with
              | some i => hRemove hp' i
              | none => hp' }

/-- Embeds `stack<T>::destroy()` with enough fuel to drain any pool. -/
def sDestroy {α : Type} (σ : SS α) : SS α := sDrain σ.hp.length σ

/-- The provisioning loop with an allocation-failure point (`idx`-th
`new node()` raises when `idx = failAt`); `.error σ` = the exception escaped
the loop. -/
def sProvisionF {α : Type} [Inhabited α] (failAt : Nat) :
    Nat → Nat → SS α → Except (SS α) (SS α)
  | 0, _, σ => .ok σ
  | k + 1, idx, σ =>
    if idx = failAt then .error σ
    else
      let hp1 := σ.hp ++ [(σ.nextId, ⟨(default : α), nullTW⟩)]
      let pr := isPush hp1 σ.freeHd ⟨some σ.nextId, 0⟩
      sProvisionF failAt k (idx + 1)
        { σ with hp := pr.1, freeHd := pr.2, nextId := σ.nextId + 1 }

/-- Embeds `stack<T>::stack(k)` with an allocation-failure point (part_006 lines
86–97): `try { provision } catch (...) { destroy(); }` — the exception is
**swallowed**, the constructor returns normally, so the result type has no
error channel. -/
def sInitF (α : Type) [Inhabited α] (k failAt : Nat) : SS α :=
  match sProvisionF failAt k 0 ⟨nullTW, nullTW, [], 0⟩ with
  | .ok σ => σ
  | .error σ => sDestroy σ

/-! ## The binary min-heap (`mu::alg::heap`, src/mu/alg/heap.h)

The backing `RandomAccess` sequence (`std::deque<size_t>` in `mu::adt::heap`)
is modelled as a `List Nat`; out-of-range reads default to 0 and are
unreachable in the modelled runs. -/

/-- Embeds `impl::left_child_index(i) = 2*i + 1`. -/
def leftChildIndex (i : Nat) : Nat := 2 * i + 1

/-- Embeds `impl::right_child_index(i) = 2*i + 2`. -/
def rightChildIndex (i : Nat) : Nat := 2 * i + 2

/-- Embeds `impl::parent_index(i) = (i - 1) / 2`. -/
def parentIndex (i : Nat) : Nat := (i - 1) / 2

/-- Embeds `std::swap(a[i], a[j])`. -/
def hswap (a : List Nat) (i j : Nat) : List Nat :=
  (a.set i (a.getD j 0)).set j (a.getD i 0)

/-- The `while (i > 0 && a[i] < a[p])` loop of `heap::bubble_last`; `i`
strictly decreases, so `i` itself is enough fuel. -/
def bubbleLoop : Nat → List Nat → Nat → List Nat
  | 0, a, _ => a
  | f + 1, a, i =>
    let p := parentIndex i
    if 0 < i ∧ a.getD i 0 < a.getD p 0 then bubbleLoop f (hswap a i p) p
    else a

/-- Embeds `heap::bubble_last(a)` (src/mu/alg/heap.h lines 137–156). -/
def bubbleLast (a : List Nat) : List Nat :=
  if a = [] then a
  else
    let i := a.length - 1
    if i < 1 then a else bubbleLoop i a i

/-- The sift loop of `heap::sift_first`; `i` strictly increases and stays
below `a.length`, so `a.length` is enough fuel. -/
def siftLoop : Nat → List Nat → Nat → List Nat
  | 0, a, _ => a
  | f + 1, a, i =>
    let l := leftChildIndex i
    let r := rightChildIndex i
    if a.length ≤ l then a
    else if a.length ≤ r then
      if a.getD l 0 < a.getD i 0 then hswap a l i else a
    else if a.getD i 0 < a.getD l 0 ∧ a.getD i 0 < a.getD r 0 then a
    else if a.getD l 0 < a.getD r 0 then siftLoop f (hswap a l i) l
    else siftLoop f (hswap a r i) r

/-- Embeds `heap::sift_first(a)` (src/mu/alg/heap.h lines 158–202). -/
def siftFirst (a : List Nat) : List Nat :=
  if a = [] then a else siftLoop a.length a 0

/-- Embeds `heap::push(a, e)`: `a.push_back(e); bubble_last(a);`. -/
def heapPush (a : List Nat) (e : Nat) : List Nat :=
  bubbleLast (a ++ [e])

/-- Embeds `heap::pop(a)` (src/mu/alg/heap.h lines 120–135): if one element,
`pop_front`; else swap first/last, `pop_back`, `sift_first`.  (`pop` on an
empty sequence is a precondition violation in the source; unreachable in the
modelled runs.) -/
def heapPop (a : List Nat) : List Nat :=
  if a.length = 1 then a.drop 1
  else siftFirst (hswap a 0 (a.length - 1)).dropLast

/-- Embeds `heap::top(a)`: `a[0]` (precondition `!a.empty()`). -/
def heapTop (a : List Nat) : Nat := a.getD 0 0

/-- Read `top()` then `pop()`, `k` times, collecting the tops. -/
def popsTops : Nat → List Nat → List Nat
  | 0, _ => []
  | k + 1, a => heapTop a :: popsTops k (heapPop a)

/-! ## Chain predicates and heap lemmas

`chainB hp w ids` says: starting from the word `w` and repeatedly following
`next_`, one visits exactly the nodes `ids` (by identity) and ends at a word
with a null untagged address.  Only addresses matter to the link structure;
tags on the stored `next_` words are irrelevant to it. -/

/-- Boolean chain predicate: `w` heads a chain through exactly `ids`. -/
def chainB {α : Type} (hp : Heap α) : TW → List Nat → Bool
  | w, [] => decide (w.addr = none)
  | w, i :: rest =>
    decide (w.addr = some i) &&
      (match hLookup hp i with
        | some nd => chainB hp nd.next rest
        | none => false)

theorem chainB_nil {α : Type} (hp : Heap α) (w : TW) :
    chainB hp w [] = true ↔ w.addr = none := by
  simp [chainB]

theorem chainB_cons {α : Type} (hp : Heap α) (w : TW) (i : Nat)
    (ids : List Nat) :
    chainB hp w (i :: ids) = true ↔
      w.addr = some i ∧
        ∃ nd, hLookup hp i = some nd ∧ chainB hp nd.next ids = true := by
  simp only [chainB, Bool.and_eq_true, decide_eq_true_eq]
  constructor
  · rintro ⟨h1, h2⟩
    refine ⟨h1, ?_⟩
    cases hl : hLookup hp i with
    | none => rw [hl] at h2; exact absurd h2 (by simp)
    | some nd => exact ⟨nd, rfl, by rw [hl] at h2; exact h2⟩
  · rintro ⟨h1, nd, hl, h2⟩
    exact ⟨h1, by rw [hl]; exact h2⟩

/-- The chain predicate only looks at the address of the head word. -/
theorem chainB_addr_congr {α : Type} (hp : Heap α) (w1 w2 : TW)
    (h : w1.addr = w2.addr) (ids : List Nat) :
    chainB hp w1 ids = chainB hp w2 ids := by
  cases ids <;> simp [chainB, h]

theorem hLookup_hSetNext {α : Type} (hp : Heap α) (i : Nat) (w : TW)
    (j : Nat) :
    hLookup (hSetNext hp i w) j =
      if j = i then (hLookup hp i).map (fun nd => { nd with next := w })
      else hLookup hp j := by
  induction hp with
  | nil => by_cases hji : j = i <;> simp [hLookup, hSetNext, hji]
  | cons p ps ih =>
    by_cases hpi : p.1 = i <;> by_cases hji : j = i <;>
      by_cases hpj : p.1 = j <;>
      simp_all [hLookup, hSetNext]

theorem hLookup_hSetValue {α : Type} (hp : Heap α) (i : Nat) (v : α)
    (j : Nat) :
    hLookup (hSetValue hp i v) j =
      if j = i then (hLookup hp i).map (fun nd => { nd with value := v })
      else hLookup hp j := by
  induction hp with
  | nil => by_cases hji : j = i <;> simp [hLookup, hSetValue, hji]
  | cons p ps ih =>
    by_cases hpi : p.1 = i <;> by_cases hji : j = i <;>
      by_cases hpj : p.1 = j <;>
      simp_all [hLookup, hSetValue]

theorem hLookup_append_left {α : Type} {hp1 : Heap α} {j : Nat}
    {nd : Node α} (hp2 : Heap α) (h : hLookup hp1 j = some nd) :
    hLookup (hp1 ++ hp2) j = some nd := by
  induction hp1 with
  | nil => simp [hLookup] at h
  | cons p ps ih =>
    simp only [hLookup, List.cons_append] at *
    by_cases hpj : p.1 = j
    · simpa [hpj] using h
    · simp only [hpj, if_neg hpj] at *
      exact ih h

theorem hLookup_append_right {α : Type} {hp1 : Heap α} {j : Nat}
    (hp2 : Heap α) (h : hLookup hp1 j = none) :
    hLookup (hp1 ++ hp2) j = hLookup hp2 j := by
  induction hp1 with
  | nil => simp [hLookup]
  | cons p ps ih =>
    simp only [hLookup, List.cons_append] at *
    by_cases hpj : p.1 = j
    · simp [hpj] at h
    · simp only [hpj, if_neg hpj] at *
      exact ih h

theorem hLookup_hRemove_ne {α : Type} (hp : Heap α) (i j : Nat)
    (h : j ≠ i) : hLookup (hRemove hp i) j = hLookup hp j := by
  induction hp with
  | nil => simp [hLookup, hRemove]
  | cons p ps ih =>
    by_cases hpi : p.1 = i <;> by_cases hpj : p.1 = j <;>
      simp_all [hLookup, hRemove]

theorem key_lt_of_hLookup {α : Type} {hp : Heap α} {b j : Nat}
    {nd : Node α} (hk : ∀ p ∈ hp, p.1 < b) (hl : hLookup hp j = some nd) :
    j < b := by
  induction hp with
  | nil => simp [hLookup] at hl
  | cons p ps ih =>
    simp only [hLookup] at hl
    by_cases hpj : p.1 = j
    · exact hpj ▸ hk p (by simp)
    · rw [if_neg hpj] at hl
      exact ih (fun q hq => hk q (by simp [hq])) hl

theorem hLookup_none_of_keys_lt {α : Type} {hp : Heap α} {b : Nat}
    (hk : ∀ p ∈ hp, p.1 < b) : hLookup hp b = none := by
  cases hl : hLookup hp b with
  | none => rfl
  | some nd => exact absurd (key_lt_of_hLookup hk hl) (lt_irrefl b)

/-! Preservation of the chain predicate under heap updates. -/

theorem chainB_hSetValue {α : Type} (hp : Heap α) (i : Nat) (v : α) :
    ∀ (ids : List Nat) (w : TW),
      chainB (hSetValue hp i v) w ids = chainB hp w ids := by
  intro ids
  induction ids with
  | nil => intro w; simp [chainB]
  | cons j rest ih =>
    intro w
    simp only [chainB, hLookup_hSetValue]
    by_cases hji : j = i
    · subst hji
      cases hl : hLookup hp j with
      | none => simp
      | some nd => simp [ih]
    · rw [if_neg hji]
      cases hl : hLookup hp j with
      | none => simp
      | some nd => simp [ih]

theorem chainB_hSetNext_outside {α : Type} (hp : Heap α) (i : Nat)
    (x : TW) :
    ∀ (ids : List Nat) (w : TW), i ∉ ids →
      chainB (hSetNext hp i x) w ids = chainB hp w ids := by
  intro ids
  induction ids with
  | nil => intro w _; simp [chainB]
  | cons j rest ih =>
    intro w hmem
    have hji : ¬(j = i) := fun hc => hmem (by simp [hc])
    have hrest : i ∉ rest := fun hc => hmem (by simp [hc])
    simp only [chainB, hLookup_hSetNext, if_neg hji]
    cases hl : hLookup hp j with
    | none => simp
    | some nd => simp [ih nd.next hrest]

theorem chainB_hRemove_outside {α : Type} (hp : Heap α) (i : Nat) :
    ∀ (ids : List Nat) (w : TW), i ∉ ids →
      chainB (hRemove hp i) w ids = chainB hp w ids := by
  intro ids
  induction ids with
  | nil => intro w _; simp [chainB]
  | cons j rest ih =>
    intro w hmem
    have hji : j ≠ i := fun hc => hmem (by simp [hc])
    have hrest : i ∉ rest := fun hc => hmem (by simp [hc])
    simp only [chainB, hLookup_hRemove_ne hp i j hji]
    cases hl : hLookup hp j with
    | none => simp
    | some nd => simp [ih nd.next hrest]

theorem chainB_append_entry {α : Type} {hp : Heap α} (e : Nat × Node α) :
    ∀ {ids : List Nat} {w : TW}, chainB hp w ids = true →
      chainB (hp ++ [e]) w ids = true := by
  intro ids
  induction ids with
  | nil => intro w h; simpa [chainB] using h
  | cons j rest ih =>
    intro w h
    rcases (chainB_cons hp w j rest).mp h with ⟨hw, nd, hl, hch⟩
    refine (chainB_cons _ w j rest).mpr ⟨hw, nd, hLookup_append_left [e] hl, ih hch⟩

theorem chainB_mem_isSome {α : Type} {hp : Heap α} :
    ∀ {ids : List Nat} {w : TW}, chainB hp w ids = true →
      ∀ j ∈ ids, (hLookup hp j).isSome := by
  intro ids
  induction ids with
  | nil => intro w _ j hj; simp at hj
  | cons i rest ih =>
    intro w h j hj
    rcases (chainB_cons hp w i rest).mp h with ⟨_, nd, hl, hch⟩
    rcases List.mem_cons.mp hj with hji | hjr
    · rw [hji, hl]; rfl
    · exact ih hch j hjr

/-- The stored `next_` of the last chain node has a null address. -/
theorem chainB_last_next {α : Type} {hp : Heap α} {j : Nat} :
    ∀ {ids : List Nat} {w : TW}, chainB hp w (ids ++ [j]) = true →
      ∃ nd, hLookup hp j = some nd ∧ nd.next.addr = none := by
  intro ids
  induction ids with
  | nil =>
    intro w h
    rcases (chainB_cons hp w j []).mp h with ⟨_, nd, hl, hch⟩
    exact ⟨nd, hl, (chainB_nil hp nd.next).mp hch⟩
  | cons a rest ih =>
    intro w h
    rcases (chainB_cons hp w a (rest ++ [j])).mp h with ⟨_, nd, _, hch⟩
    exact ih hch

/-- Linking a fresh node `k` after the last chain node `j`: overwrite `j`'s
`next_` with a word addressed at `k` (whose own `next_` is null), extending
the chain by `[k]`. -/
theorem chainB_link {α : Type} {hp : Heap α} {j k : Nat} {x : TW}
    {ndk : Node α} (hx : x.addr = some k)
    (hkl : hLookup hp k = some ndk) (hknext : ndk.next.addr = none) :
    ∀ {ids : List Nat} {w : TW}, (ids ++ [j]).Nodup → k ∉ ids ++ [j] →
      chainB hp w (ids ++ [j]) = true →
      chainB (hSetNext hp j x) w (ids ++ [j] ++ [k]) = true := by
  intro ids
  induction ids with
  | nil =>
    intro w _ hk hch
    have hkj : ¬(k = j) := by simpa using hk
    rcases (chainB_cons hp w j []).mp hch with ⟨hw, nd, hl, _⟩
    refine (chainB_cons _ w j [k]).mpr ⟨hw, { nd with next := x }, ?_, ?_⟩
    · rw [hLookup_hSetNext, if_pos rfl, hl]; rfl
    · refine (chainB_cons _ x k []).mpr ⟨hx, ndk, ?_, ?_⟩
      · rw [hLookup_hSetNext, if_neg hkj]; exact hkl
      · exact (chainB_nil _ ndk.next).mpr hknext
  | cons a rest ih =>
    intro w hnd hk hch
    have haj : a ∉ rest ++ [j] := (List.nodup_cons.mp hnd).1
    have hajne : ¬(a = j) := fun hc => haj (by simp [hc])
    have hka : k ∉ rest ++ [j] := fun hc => hk (by simp [hc])
    rcases (chainB_cons hp w a (rest ++ [j])).mp hch with ⟨hw, nd, hl, hch'⟩
    refine (chainB_cons _ w a (rest ++ [j] ++ [k])).mpr ⟨hw, nd, ?_, ?_⟩
    · rw [hLookup_hSetNext, if_neg hajne]; exact hl
    · exact ih (List.nodup_cons.mp hnd).2 hka hch'

/-! Value and domain preservation under heap updates. -/

theorem valAt_hSetNext {α : Type} [Inhabited α] (hp : Heap α) (i : Nat)
    (w : TW) (j : Nat) : valAt (hSetNext hp i w) j = valAt hp j := by
  simp only [valAt, hLookup_hSetNext]
  by_cases hji : j = i
  · subst hji; cases hLookup hp j <;> simp
  · simp [hji]

theorem valAt_hSetValue_ne {α : Type} [Inhabited α] (hp : Heap α) (i : Nat)
    (v : α) (j : Nat) (h : j ≠ i) :
    valAt (hSetValue hp i v) j = valAt hp j := by
  simp [valAt, hLookup_hSetValue, h]

theorem valAt_hSetValue_self {α : Type} [Inhabited α] (hp : Heap α)
    (i : Nat) (v : α) (h : (hLookup hp i).isSome) :
    valAt (hSetValue hp i v) i = v := by
  rcases Option.isSome_iff_exists.mp h with ⟨nd, hnd⟩
  simp [valAt, hLookup_hSetValue, hnd]

theorem valAt_append_of_isSome {α : Type} [Inhabited α] {hp : Heap α}
    {j : Nat} (e : Nat × Node α) (h : (hLookup hp j).isSome) :
    valAt (hp ++ [e]) j = valAt hp j := by
  rcases Option.isSome_iff_exists.mp h with ⟨nd, hnd⟩
  simp [valAt, hLookup_append_left [e] hnd, hnd]

theorem isSome_hSetNext {α : Type} (hp : Heap α) (i : Nat) (w : TW)
    (j : Nat) :
    (hLookup (hSetNext hp i w) j).isSome = (hLookup hp j).isSome := by
  simp only [hLookup_hSetNext]
  by_cases hji : j = i
  · subst hji; cases hLookup hp j <;> simp
  · simp [hji]

theorem isSome_hSetValue {α : Type} (hp : Heap α) (i : Nat) (v : α)
    (j : Nat) :
    (hLookup (hSetValue hp i v) j).isSome = (hLookup hp j).isSome := by
  simp only [hLookup_hSetValue]
  by_cases hji : j = i
  · subst hji; cases hLookup hp j <;> simp
  · simp [hji]

/-! ## The sequential queue invariant

`QInv σ ch` ties a queue state to the (ghost) list `ch` of node identifiers
on the chain from `head_` (the sentinel first).  It captures the Michael–
Scott structure in the single-threaded case: the chain is well formed and
acyclic, `tail_` addresses its last node (no lag between operations), the
tag discipline keeps `tail_.tag = head_.tag + (chain length - 1) (mod 2^16)`,
pooled pointers are valid, non-null, and disjoint from the chain, and
`capacity_` counts pool plus chain. -/

/-- The node identifiers held (as values) in the free pool. -/
def freeIds {α : Type} (σ : QS α) : List Nat := σ.free.filterMap TW.addr

/-- The abstract queue contents: the values of the payload nodes (everything
on the chain after the sentinel), front first. -/
def absV {α : Type} [Inhabited α] (σ : QS α) (ch : List Nat) : List α :=
  (ch.drop 1).map (valAt σ.hp)

/-- The sequential queue invariant (see section comment). -/
structure QInv {α : Type} (σ : QS α) (ch : List Nat) : Prop where
  hch : chainB σ.hp σ.head ch = true
  hne : ch ≠ []
  htailaddr : σ.tail.addr = ch.getLast?
  htailtag : σ.tail.tag = (σ.head.tag + (ch.length - 1)) % TAG_MOD
  hheadtag : σ.head.tag < TAG_MOD
  hnodup : (ch ++ freeIds σ).Nodup
  hfreeaddr : ∀ e ∈ σ.free, e.addr ≠ none
  hfreelook : ∀ i ∈ freeIds σ, (hLookup σ.hp i).isSome
  hkeys : ∀ j, σ.nextId ≤ j → hLookup σ.hp j = none

/-- Under the invariant, a single `enqueue` of a valid unlinked node `f`
executes exactly one loop iteration: it clears `f`'s `next_`, links `f`
after the chain's last node, and swings `tail_` to `f` tagged with
`tag(tail)+1`. -/
theorem enqueue_spec {α : Type} [Inhabited α] (σ : QS α) (ch : List Nat)
    (f ft : Nat)
    (hch : chainB σ.hp σ.head ch = true) (hne : ch ≠ [])
    (htail : σ.tail.addr = ch.getLast?)
    (hnd : ch.Nodup) (hf : f ∉ ch) (hfl : (hLookup σ.hp f).isSome) :
    ∃ hp' : Heap α,
      enqueue σ ⟨some f, ft⟩ =
        { σ with hp := hp', tail := tagWith ⟨some f, ft⟩ (σ.tail.tag + 1) } ∧
      chainB hp' σ.head (ch ++ [f]) = true ∧
      (∀ j, valAt hp' j = valAt σ.hp j) ∧
      (∀ j, (hLookup hp' j).isSome = (hLookup σ.hp j).isSome) := by
  obtain ⟨ids, last, hch_eq⟩ : ∃ ids last, ch = ids ++ [last] :=
    ⟨ch.dropLast, ch.getLast hne, (List.dropLast_append_getLast hne).symm⟩
  subst hch_eq
  have htail' : σ.tail.addr = some last := by
    rw [htail, List.getLast?_concat]
  have hflast : ¬(f = last) := fun hc => hf (by simp [hc])
  obtain ⟨ndl, hndl, hndlnext⟩ := chainB_last_next hch
  obtain ⟨ndf, hndf⟩ := Option.isSome_iff_exists.mp hfl
  -- step 1: untag(n)->next_ = nullptr
  set hp3 : Heap α := hSetNext σ.hp f nullTW with hp3_def
  have hσ3 : qSetNext σ ⟨some f, ft⟩ nullTW = { σ with hp := hp3 } := rfl
  have hlast3 : hLookup hp3 last = some ndl := by
    rw [hp3_def, hLookup_hSetNext, if_neg (fun hc => hflast hc.symm), hndl]
  have hf3 : hLookup hp3 f = some { ndf with next := nullTW } := by
    rw [hp3_def, hLookup_hSetNext, if_pos rfl, hndf]; rfl
  have hnx : nextAt hp3 σ.tail = ndl.next := by
    simp only [nextAt, htail', hlast3]
  -- the loop body: link and swing
  have hloop :
      enqueue σ ⟨some f, ft⟩ =
        { σ with
            hp := hSetNext hp3 last (tagWith ⟨some f, ft⟩ (ndl.next.tag + 1))
            tail := tagWith ⟨some f, ft⟩ (σ.tail.tag + 1) } := by
    rw [enqueue, hσ3]
    show enqLoop (σ.hp.length + 1) _ _ = _
    rw [enqLoop]
    simp only [hnx]
    rw [if_pos hndlnext]
    have hqsn :
        qSetNext { σ with hp := hp3 } σ.tail
            (tagWith ⟨some f, ft⟩ (ndl.next.tag + 1)) =
          { σ with
              hp := hSetNext hp3 last
                (tagWith ⟨some f, ft⟩ (ndl.next.tag + 1)) } := by
      simp only [qSetNext, htail']
    rw [hqsn]
  refine ⟨hSetNext hp3 last (tagWith ⟨some f, ft⟩ (ndl.next.tag + 1)),
    hloop, ?_, ?_, ?_⟩
  · -- the chain grew by [f]
    have hch3 : chainB hp3 σ.head (ids ++ [last]) = true := by
      rw [hp3_def, chainB_hSetNext_outside _ _ _ _ _ hf]; exact hch
    exact chainB_link rfl hf3 rfl hnd hf hch3
  · intro j
    rw [valAt_hSetNext, hp3_def, valAt_hSetNext]
  · intro j
    rw [isSome_hSetNext, hp3_def, isSome_hSetNext]

/-! Small helpers for tags and options. -/

theorem tag_mod_step (a b : Nat) :
    ((a % TAG_MOD) + b) % TAG_MOD = (a + b) % TAG_MOD :=
  Nat.mod_add_mod a TAG_MOD b

theorem opt_none_of_isSome_false {α : Type} {o : Option (Node α)}
    (h : o.isSome = false) : o = none := by
  cases o with
  | none => rfl
  | some nd => simp at h

/-- Under the invariant, `qpush` (the shared successful path of `push` and
`emplace`) appends one node to the chain carrying the pushed value, consumes
the top pooled node when the pool is non-empty, and allocates (incrementing
`capacity_`) exactly when the pool is empty. -/
theorem qpush_sim {α : Type} [Inhabited α] (σ : QS α) (ch : List Nat)
    (v : α) (h : QInv σ ch) :
    ∃ i, QInv (qpush σ v) (ch ++ [i]) ∧
      absV (qpush σ v) (ch ++ [i]) = absV σ ch ++ [v] ∧
      (qpush σ v).free = σ.free.drop 1 ∧
      (qpush σ v).capacity =
        σ.capacity + (if σ.free = [] then 1 else 0) ∧
      (qpush σ v).head = σ.head := by
  obtain ⟨hch, hne, htailaddr, htailtag, hheadtag, hnodup, hfreeaddr,
    hfreelook, hkeys⟩ := h
  have hchnd : ch.Nodup := (List.nodup_append.mp hnodup).1
  have hdisj : ch.Disjoint (freeIds σ) := (List.nodup_append.mp hnodup).2.2
  have hlen1 : 1 ≤ ch.length := List.length_pos.mpr hne
  cases hfree : σ.free with
  | cons e rest =>
    obtain ⟨ea, et⟩ := e
    have hea : (⟨ea, et⟩ : TW).addr ≠ none :=
      hfreeaddr ⟨ea, et⟩ (by rw [hfree]; exact List.mem_cons_self _ _)
    obtain ⟨fa, hfa⟩ : ∃ fa, ea = some fa := by
      cases ea with
      | none => exact absurd rfl hea
      | some x => exact ⟨x, rfl⟩
    subst hfa
    have hfamem : fa ∈ freeIds σ := by
      rw [freeIds, hfree]
      exact List.mem_filterMap.mpr ⟨⟨some fa, et⟩, List.mem_cons_self _ _, rfl⟩
    have hfach : fa ∉ ch := fun hc => hdisj hc hfamem
    have hfal : (hLookup σ.hp fa).isSome := hfreelook fa hfamem
    have halloc : allocNode σ = ({ σ with free := rest }, ⟨some fa, et⟩) := by
      simp only [allocNode, hfree]
    have hqp :
        qpush σ v =
          enqueue { σ with free := rest, hp := hSetValue σ.hp fa v }
            ⟨some fa, et⟩ := by
      rw [qpush, halloc]
      rfl
    set σ2 : QS α := { σ with free := rest, hp := hSetValue σ.hp fa v }
      with hσ2
    obtain ⟨hp', heq, hch', hvals, hdom⟩ :=
      enqueue_spec σ2 ch fa et
        (by
          show chainB (hSetValue σ.hp fa v) σ.head ch = true
          rw [chainB_hSetValue]; exact hch)
        hne htailaddr hchnd hfach
        (by show (hLookup (hSetValue σ.hp fa v) fa).isSome
            rw [isSome_hSetValue]; exact hfal)
    rw [hqp, heq]
    refine ⟨fa, ?_, ?_, by simp [hσ2, hfree], ?_, rfl⟩
    · refine ⟨hch', by simp, ?_, ?_, hheadtag, ?_, ?_, ?_, ?_⟩
      · show (tagWith ⟨some fa, et⟩ (σ.tail.tag + 1)).addr = _
        rw [List.getLast?_concat]; rfl
      · show (tagWith ⟨some fa, et⟩ (σ.tail.tag + 1)).tag = _
        show (σ.tail.tag + 1) % TAG_MOD = _
        rw [htailtag, tag_mod_step, List.length_append]
        congr 1
        simp only [List.length_cons, List.length_nil]
        try omega
      · show ((ch ++ [fa]) ++ List.filterMap TW.addr rest).Nodup
        rw [List.append_assoc]
        have : freeIds σ = fa :: List.filterMap TW.addr rest := by
          rw [freeIds, hfree, List.filterMap_cons]
        rw [this] at hnodup
        exact hnodup
      · intro e' he'
        exact hfreeaddr e' (by rw [hfree]; exact List.mem_cons_of_mem _ he')
      · intro i hi
        have : i ∈ freeIds σ := by
          rw [freeIds, hfree, List.filterMap_cons]
          exact List.mem_cons_of_mem _ hi
        have h1 := hfreelook i this
        rw [hdom]
        show (hLookup (hSetValue σ.hp fa v) i).isSome
        rw [isSome_hSetValue]; exact h1
      · intro j hj
        apply opt_none_of_isSome_false
        rw [hdom]
        show (hLookup (hSetValue σ.hp fa v) j).isSome = false
        rw [isSome_hSetValue, hkeys j hj]
        rfl
    · show ((ch ++ [fa]).drop 1).map (valAt hp') = _
      rw [List.drop_append_of_le_length hlen1, List.map_append]
      congr 1
      · apply List.map_congr_left
        intro j hj
        have hjch : j ∈ ch := List.mem_of_mem_drop hj
        have : j ≠ fa := fun hc => hfach (hc ▸ hjch)
        rw [hvals]
        show valAt (hSetValue σ.hp fa v) j = _
        rw [valAt_hSetValue_ne _ _ _ _ this]
      · simp only [List.map_cons, List.map_nil]
        rw [hvals]
        show [valAt (hSetValue σ.hp fa v) fa] = [v]
        rw [valAt_hSetValue_self _ _ _ hfal]
    · simp [hσ2, hfree]
  | nil =>
    set nid := σ.nextId with hnid
    have hnone : hLookup σ.hp nid = none := hkeys nid le_rfl
    have hlook1 :
        hLookup (σ.hp ++ [(nid, ⟨default, nullTW⟩)]) nid =
          some ⟨default, nullTW⟩ := by
      rw [hLookup_append_right _ hnone]
      simp [hLookup]
    have hnidch : nid ∉ ch := by
      intro hc
      have := chainB_mem_isSome hch nid hc
      rw [hnone] at this
      simp at this
    have halloc :
        allocNode σ =
          ({ σ with
              hp := σ.hp ++ [(nid, ⟨default, nullTW⟩)]
              nextId := nid + 1
              capacity := σ.capacity + 1 }, ⟨some nid, 0⟩) := by
      simp only [allocNode, hfree]
    have hqp :
        qpush σ v =
          enqueue
            { σ with
                hp := hSetValue (σ.hp ++ [(nid, ⟨default, nullTW⟩)]) nid v
                nextId := nid + 1
                capacity := σ.capacity + 1 }
            ⟨some nid, 0⟩ := by
      rw [qpush, halloc]
      rfl
    set σ2 : QS α :=
      { σ with
          hp := hSetValue (σ.hp ++ [(nid, ⟨default, nullTW⟩)]) nid v
          nextId := nid + 1
          capacity := σ.capacity + 1 } with hσ2
    obtain ⟨hp', heq, hch', hvals, hdom⟩ :=
      enqueue_spec σ2 ch nid 0
        (by
          show chainB (hSetValue _ nid v) σ.head ch = true
          rw [chainB_hSetValue]
          exact chainB_append_entry _ hch)
        hne htailaddr hchnd hnidch
        (by
          show (hLookup (hSetValue _ nid v) nid).isSome
          rw [isSome_hSetValue, hlook1]
          rfl)
    rw [hqp, heq]
    refine ⟨nid, ?_, ?_, by simp [hσ2, hfree], ?_, rfl⟩
    · refine ⟨hch', by simp, ?_, ?_, hheadtag, ?_, ?_, ?_, ?_⟩
      · show (tagWith ⟨some nid, 0⟩ (σ.tail.tag + 1)).addr = _
        rw [List.getLast?_concat]; rfl
      · show (tagWith ⟨some nid, 0⟩ (σ.tail.tag + 1)).tag = _
        show (σ.tail.tag + 1) % TAG_MOD = _
        rw [htailtag, tag_mod_step, List.length_append]
        congr 1
        simp only [List.length_cons, List.length_nil]
        try omega
      · have hnn : (ch ++ [nid]).Nodup := by
          rw [freeIds, hfree] at hnodup
          simp only [List.filterMap_nil, List.append_nil] at hnodup
          rw [List.nodup_append]
          exact ⟨hnodup, by simp, by
            intro a ha hb
            simp only [List.mem_singleton] at hb
            exact hnidch (hb ▸ ha)⟩
        simpa only [freeIds, hσ2, hfree, List.filterMap_nil,
          List.append_nil] using hnn
      · intro e' he'
        simp [hσ2, hfree] at he'
      · intro i hi
        simp [freeIds, hσ2, hfree] at hi
      · intro j hj
        have hj' : nid + 1 ≤ j := hj
        apply opt_none_of_isSome_false
        rw [hdom]
        show (hLookup (hSetValue _ nid v) j).isSome = false
        rw [isSome_hSetValue]
        have hjgt : ¬(nid = j) := by omega
        rw [hLookup_append_right _ (hkeys j (by omega))]
        simp [hLookup, hjgt]
    · show ((ch ++ [nid]).drop 1).map (valAt hp') = _
      rw [List.drop_append_of_le_length hlen1, List.map_append]
      congr 1
      · apply List.map_congr_left
        intro j hj
        have hjch : j ∈ ch := List.mem_of_mem_drop hj
        have hjne : j ≠ nid := fun hc => hnidch (hc ▸ hjch)
        rw [hvals]
        show valAt (hSetValue _ nid v) j = _
        rw [valAt_hSetValue_ne _ _ _ _ hjne]
        exact valAt_append_of_isSome _ (chainB_mem_isSome hch j hjch)
      · simp only [List.map_cons, List.map_nil]
        rw [hvals]
        show [valAt (hSetValue _ nid v) nid] = [v]
        rw [valAt_hSetValue_self _ _ _ (by rw [hlook1]; rfl)]
    · simp [hσ2, hfree]

/-- Whole-word extensionality for tagged words. -/
theorem TW_eq_of_parts {w1 w2 : TW} (h1 : w1.addr = w2.addr)
    (h2 : w1.tag = w2.tag) : w1 = w2 := by
  cases w1; cases w2; simp_all

/-- When the chain is just the sentinel, `head_` and `tail_` are equal as
whole tagged words (the tag discipline aligns their tags exactly). -/
theorem head_eq_tail_of_singleton {α : Type} (σ : QS α) (c0 : Nat)
    (h : QInv σ [c0]) : σ.head = σ.tail := by
  obtain ⟨hch, _, htailaddr, htailtag, hheadtag, _, _, _, _⟩ := h
  have ha : σ.head.addr = some c0 := ((chainB_cons _ _ _ _).mp hch).1
  have hta : σ.tail.addr = some c0 := by simpa using htailaddr
  refine TW_eq_of_parts (by rw [ha, hta]) ?_
  rw [htailtag]
  simp [Nat.mod_eq_of_lt hheadtag]

/-- Under the invariant, `dequeue` on a sentinel-only chain reports empty
and leaves the state untouched. -/
theorem dequeue_empty {α : Type} [Inhabited α] (σ : QS α) (c0 : Nat)
    (h : QInv σ [c0]) : dequeue σ = (σ, none) := by
  have hht := head_eq_tail_of_singleton σ c0 h
  obtain ⟨hch, _, _, _, _, _, _, _, _⟩ := h
  obtain ⟨ha, nd0, hl0, hch0⟩ := (chainB_cons _ _ _ _).mp hch
  have hn0 : nd0.next.addr = none := (chainB_nil _ _).mp hch0
  have hnx : nextAt σ.hp σ.head = nd0.next := by
    simp only [nextAt, ha, hl0]
  rw [dequeue]
  show deqLoop (σ.hp.length + 1) σ = (σ, none)
  rw [deqLoop]
  simp only [hnx]
  rw [if_pos hht, if_pos hn0]

/-- Under the invariant, `dequeue` on a chain with at least one payload node
returns the first payload value, makes that node the new sentinel, and
returns the old sentinel to the pool. -/
theorem dequeue_cons {α : Type} [Inhabited α] (σ : QS α) (c0 c1 : Nat)
    (rest : List Nat) (h : QInv σ (c0 :: c1 :: rest)) :
    (dequeue σ).2 = some (valAt σ.hp c1) ∧
      QInv (dequeue σ).1 (c1 :: rest) ∧
      (dequeue σ).1.hp = σ.hp ∧
      (dequeue σ).1.capacity = σ.capacity ∧
      (dequeue σ).1.free = σ.head :: σ.free := by
  obtain ⟨hch, hne, htailaddr, htailtag, hheadtag, hnodup, hfreeaddr,
    hfreelook, hkeys⟩ := h
  obtain ⟨ha, nd0, hl0, hch0⟩ := (chainB_cons _ _ _ _).mp hch
  obtain ⟨hn1, nd1, hl1, hch1⟩ := (chainB_cons _ _ _ _).mp hch0
  have hchnd : (c0 :: c1 :: rest).Nodup := (List.nodup_append.mp hnodup).1
  have hc0 : c0 ∉ c1 :: rest := (List.nodup_cons.mp hchnd).1
  have hlast : σ.tail.addr = (c1 :: rest).getLast? := by
    rw [htailaddr, List.getLast?_cons_cons]
  have hlq : σ.tail.addr = some ((c1 :: rest).getLast (by simp)) := by
    rw [hlast, List.getLast?_eq_getLast _ (by simp)]
  have hne_ht : ¬(σ.head = σ.tail) := by
    intro hc
    rw [hc, hlq] at ha
    have : (c1 :: rest).getLast (by simp) = c0 := by
      exact (Option.some_injective _ ha.symm).symm
    exact hc0 (this ▸ List.getLast_mem (l := c1 :: rest) (by simp))
  have hnx : nextAt σ.hp σ.head = nd0.next := by
    simp only [nextAt, ha, hl0]
  have hv : valAtW σ.hp nd0.next = valAt σ.hp c1 := by
    simp only [valAtW, hn1, hl1, valAt]
  have hdq :
      dequeue σ =
        (freeNode { σ with head := tagWith nd0.next (σ.head.tag + 1) }
          σ.head, some (valAtW σ.hp nd0.next)) := by
    rw [dequeue]
    show deqLoop (σ.hp.length + 1) σ = _
    rw [deqLoop]
    simp only [hnx]
    rw [if_neg hne_ht]
  rw [hdq]
  have hfc0 : List.filterMap TW.addr (σ.head :: σ.free) = c0 :: freeIds σ := by
    rw [List.filterMap_cons, ha]
    rfl
  refine ⟨by rw [hv], ?_, rfl, rfl, rfl⟩
  refine ⟨?_, by simp, ?_, ?_, ?_, ?_, ?_, ?_, ?_⟩
  · show chainB σ.hp (tagWith nd0.next (σ.head.tag + 1)) (c1 :: rest) = true
    rw [chainB_addr_congr σ.hp (tagWith nd0.next (σ.head.tag + 1))
      nd0.next rfl]
    exact hch0
  · show σ.tail.addr = _
    exact hlast
  · show σ.tail.tag = ((tagWith nd0.next (σ.head.tag + 1)).tag +
      ((c1 :: rest).length - 1)) % TAG_MOD
    show σ.tail.tag = ((σ.head.tag + 1) % TAG_MOD +
      ((c1 :: rest).length - 1)) % TAG_MOD
    rw [tag_mod_step, htailtag]
    congr 1
    simp only [List.length_cons]
    omega
  · show (tagWith nd0.next (σ.head.tag + 1)).tag < TAG_MOD
    show (σ.head.tag + 1) % TAG_MOD < TAG_MOD
    exact Nat.mod_lt _ (by decide)
  · show ((c1 :: rest) ++ freeIds (freeNode _ σ.head)).Nodup
    have hfi : freeIds (freeNode
        { σ with head := tagWith nd0.next (σ.head.tag + 1) } σ.head) =
        c0 :: freeIds σ := by
      simp only [freeIds, freeNode]
      exact hfc0
    rw [hfi]
    have hperm :
        ((c1 :: rest) ++ c0 :: freeIds σ).Perm
          (c0 :: ((c1 :: rest) ++ freeIds σ)) := List.perm_middle
    rw [hperm.nodup_iff]
    simpa using hnodup
  · intro e he
    rcases List.mem_cons.mp he with he0 | he1
    · rw [he0, ha]; simp
    · exact hfreeaddr e he1
  · intro i hi
    rw [show freeIds (freeNode
        { σ with head := tagWith nd0.next (σ.head.tag + 1) } σ.head) =
        c0 :: freeIds σ from by simp only [freeIds, freeNode]; exact hfc0]
      at hi
    show (hLookup σ.hp i).isSome = true
    rcases List.mem_cons.mp hi with hi0 | hi1
    · rw [hi0, hl0]; rfl
    · exact hfreelook i hi1
  · intro j hj
    show hLookup σ.hp j = none
    exact hkeys j hj

/-! ## Construction: closed forms for provisioning -/

/-- Identifiers `b + k - 1, …, b + 1, b` in descending order (the pool after
pushing `k` freshly allocated nodes, most recent on top). -/
def idsDesc : Nat → Nat → List Nat
  | _, 0 => []
  | b, k + 1 => (b + k) :: idsDesc b k

/-- Heap entries for `k` default nodes with ascending identifiers from `b`. -/
def entsAsc (α : Type) [Inhabited α] : Nat → Nat → Heap α
  | _, 0 => []
  | b, k + 1 => (b, ⟨default, nullTW⟩) :: entsAsc α (b + 1) k

theorem idsDesc_snoc (b k : Nat) :
    idsDesc b (k + 1) = idsDesc (b + 1) k ++ [b] := by
  induction k with
  | zero => rfl
  | succ k ih =>
    show (b + (k + 1)) :: idsDesc b (k + 1) = _
    rw [ih]
    show _ = ((b + 1) + k) :: idsDesc (b + 1) k ++ [b]
    rw [List.cons_append]
    congr 1
    omega

theorem idsDesc_length (b k : Nat) : (idsDesc b k).length = k := by
  induction k with
  | zero => rfl
  | succ k ih => simp [idsDesc, ih]

theorem mem_idsDesc {b k j : Nat} : j ∈ idsDesc b k ↔ b ≤ j ∧ j < b + k := by
  induction k with
  | zero => simp [idsDesc]
  | succ k ih =>
    simp only [idsDesc, List.mem_cons, ih]
    omega

theorem idsDesc_nodup (b k : Nat) : (idsDesc b k).Nodup := by
  induction k with
  | zero => exact List.nodup_nil
  | succ k ih =>
    refine List.nodup_cons.mpr ⟨?_, ih⟩
    rw [mem_idsDesc]
    omega

theorem entsAsc_length (α : Type) [Inhabited α] (b k : Nat) :
    (entsAsc α b k).length = k := by
  induction k generalizing b with
  | zero => rfl
  | succ k ih => simp [entsAsc, ih]

theorem hLookup_entsAsc (α : Type) [Inhabited α] (b k j : Nat) :
    hLookup (entsAsc α b k) j =
      if b ≤ j ∧ j < b + k then some ⟨default, nullTW⟩ else none := by
  induction k generalizing b with
  | zero =>
    rw [if_neg (by omega)]
    rfl
  | succ k ih =>
    show hLookup ((b, (⟨default, nullTW⟩ : Node α)) :: entsAsc α (b + 1) k) j = _
    by_cases hbj : b = j
    · subst hbj
      rw [if_pos (show b ≤ b ∧ b < b + (k + 1) from by omega)]
      simp [hLookup]
    · have hskip :
          hLookup ((b, (⟨default, nullTW⟩ : Node α)) :: entsAsc α (b + 1) k) j =
            hLookup (entsAsc α (b + 1) k) j := by
        simp [hLookup, hbj]
      rw [hskip, ih (b + 1)]
      by_cases hin : b + 1 ≤ j ∧ j < b + 1 + k
      · rw [if_pos hin,
          if_pos (show b ≤ j ∧ j < b + (k + 1) from by omega)]
      · rw [if_neg hin,
          if_neg (show ¬(b ≤ j ∧ j < b + (k + 1)) from by omega)]

/-- Closed form for the queue constructor's provisioning loop. -/
theorem provision_spec {α : Type} [Inhabited α] :
    ∀ (k : Nat) (σ : QS α),
      provision k σ =
        { σ with
            hp := σ.hp ++ entsAsc α σ.nextId k
            free := (idsDesc σ.nextId k).map
              (fun i => (⟨some i, 0⟩ : TW)) ++ σ.free
            nextId := σ.nextId + k } := by
  intro k
  induction k with
  | zero =>
    intro σ
    show σ = _
    simp [entsAsc, idsDesc]
  | succ k ih =>
    intro σ
    show provision k _ = _
    rw [ih]
    simp only [freeNode]
    congr 1
    · -- free pool
      show (idsDesc (σ.nextId + 1) k).map (fun i => (⟨some i, 0⟩ : TW)) ++
          (⟨some σ.nextId, 0⟩ :: σ.free) =
        (idsDesc σ.nextId (k + 1)).map (fun i => (⟨some i, 0⟩ : TW)) ++ σ.free
      rw [idsDesc_snoc, List.map_append]
      simp
    · -- heap entries
      show (σ.hp ++ [(σ.nextId, ⟨default, nullTW⟩)]) ++ entsAsc α (σ.nextId + 1) k =
        σ.hp ++ entsAsc α σ.nextId (k + 1)
      rw [List.append_assoc]
      rfl
    · -- allocator counter
      omega

/-- Closed form of construction with positive initial capacity: the sentinel
is the last-provisioned node `m`, the pool holds nodes `m - 1 … 0`. -/
theorem qInit_closed (α : Type) [Inhabited α] (m : Nat) :
    qInit α (m + 1) =
      { capacity := m + 1
        head := ⟨some m, 0⟩
        tail := ⟨some m, 0⟩
        free := (idsDesc 0 m).map (fun i => (⟨some i, 0⟩ : TW))
        hp := entsAsc α 0 (m + 1)
        nextId := m + 1 } := by
  have hspec := provision_spec (m + 1)
    (⟨m + 1, nullTW, nullTW, [], [], 0⟩ : QS α)
  rw [qInit, hspec]
  have : (⟨m + 1, nullTW, nullTW,
      (idsDesc 0 (m + 1)).map (fun i => (⟨some i, 0⟩ : TW)) ++ [],
      [] ++ entsAsc α 0 (m + 1), 0 + (m + 1)⟩ : QS α) =
      ⟨m + 1, nullTW, nullTW,
        (⟨some m, 0⟩ : TW) ::
          (idsDesc 0 m).map (fun i => (⟨some i, 0⟩ : TW)),
        entsAsc α 0 (m + 1), m + 1⟩ := by
    simp only [List.append_nil, List.nil_append, Nat.zero_add]
    congr 1
    show ((0 + m) :: idsDesc 0 m).map (fun i => (⟨some i, 0⟩ : TW)) =
      (⟨some m, 0⟩ : TW) :: (idsDesc 0 m).map (fun i => (⟨some i, 0⟩ : TW))
    simp
  rw [this]
  rfl

/-- Construction statistics: `capacity_`, pool size, total node count, and
the `head_ = tail_` postcondition. -/
theorem qInit_stats (α : Type) [Inhabited α] (n : Nat) :
    (qInit α n).capacity = max n 1 ∧ (qInit α n).free.length = n - 1 ∧
      (qInit α n).hp.length = max n 1 ∧
      (qInit α n).head = (qInit α n).tail := by
  cases n with
  | zero => exact ⟨rfl, rfl, rfl, rfl⟩
  | succ m =>
    rw [qInit_closed]
    refine ⟨by simp, ?_, ?_, rfl⟩
    · show ((idsDesc 0 m).map (fun i => (⟨some i, 0⟩ : TW))).length = _
      rw [List.length_map, idsDesc_length]
      omega
    · show (entsAsc α 0 (m + 1)).length = _
      rw [entsAsc_length]
      omega

/-- The invariant holds after construction; the sentinel is node `n - 1`
(node 0 freshly allocated when `n = 0`), and the queue is abstractly empty. -/
theorem qInit_inv (α : Type) [Inhabited α] (n : Nat) :
    QInv (qInit α n) [n - 1] ∧ absV (qInit α n) [n - 1] = [] := by
  cases n with
  | zero =>
    refine ⟨⟨?_, by simp, ?_, ?_, ?_, ?_, ?_, ?_, ?_⟩, rfl⟩
    · show chainB [(0, (⟨default, nullTW⟩ : Node α))] ⟨some 0, 0⟩ [0] = true
      refine (chainB_cons _ _ _ _).mpr
        ⟨rfl, ⟨default, nullTW⟩, by simp [hLookup], (chainB_nil _ _).mpr rfl⟩
    · rfl
    · rfl
    · show (0 : Nat) < TAG_MOD
      decide
    · show ([0] ++ List.filterMap TW.addr []).Nodup
      simp
    · intro e he
      exact absurd he (List.not_mem_nil e)
    · intro i hi
      exact absurd hi (List.not_mem_nil i)
    · intro j hj
      have hj' : 1 ≤ j := hj
      have h0j : ¬((0 : Nat) = j) := by omega
      show hLookup [(0, (⟨default, nullTW⟩ : Node α))] j = none
      simp [hLookup, h0j]
  | succ m =>
    have hspec := provision_spec (m + 1)
      (⟨m + 1, nullTW, nullTW, [], [], 0⟩ : QS α)
    have hfree0 :
        (provision (m + 1) (⟨m + 1, nullTW, nullTW, [], [], 0⟩ : QS α)).free =
          (⟨some m, 0⟩ : TW) ::
            (idsDesc 0 m).map (fun i => (⟨some i, 0⟩ : TW)) := by
      rw [hspec]
      show ((0 + m) :: idsDesc 0 m).map (fun i => (⟨some i, 0⟩ : TW)) ++ [] =
        (⟨some m, 0⟩ : TW) :: (idsDesc 0 m).map (fun i => (⟨some i, 0⟩ : TW))
      simp
    rw [qInit_closed]
    have hfreeIds :
        ((idsDesc 0 m).map (fun i => (⟨some i, 0⟩ : TW))).filterMap TW.addr =
          idsDesc 0 m := by
      rw [List.filterMap_map]
      show List.filterMap (fun i => some i) _ = _
      simp
    refine ⟨⟨?_, by simp, ?_, ?_, ?_, ?_, ?_, ?_, ?_⟩, rfl⟩
    · show chainB (entsAsc α 0 (m + 1)) ⟨some m, 0⟩ [m] = true
      refine (chainB_cons _ _ _ _).mpr ⟨rfl, ⟨default, nullTW⟩, ?_, ?_⟩
      · rw [hLookup_entsAsc]
        rw [if_pos (show 0 ≤ m ∧ m < 0 + (m + 1) from by omega)]
      · exact (chainB_nil _ _).mpr rfl
    · show some m = [m].getLast?
      simp
    · rfl
    · show (0 : Nat) < TAG_MOD
      decide
    · show ([m] ++
        ((idsDesc 0 m).map (fun i => (⟨some i, 0⟩ : TW))).filterMap
          TW.addr).Nodup
      rw [hfreeIds]
      refine List.nodup_append.mpr ⟨by simp, idsDesc_nodup 0 m, ?_⟩
      intro a ha hb
      simp only [List.mem_singleton] at ha
      rw [ha] at hb
      rw [mem_idsDesc] at hb
      omega
    · intro e he
      rcases List.mem_map.mp he with ⟨i, _, hi⟩
      rw [← hi]
      simp
    · intro i hi
      show (hLookup (entsAsc α 0 (m + 1)) i).isSome = true
      have hi' : i ∈ idsDesc 0 m := by
        rw [← hfreeIds]
        exact hi
      rw [mem_idsDesc] at hi'
      rw [hLookup_entsAsc,
        if_pos (show 0 ≤ i ∧ i < 0 + (m + 1) from by omega)]
      rfl
    · intro j hj
      have hj' : m + 1 ≤ j := hj
      show hLookup (entsAsc α 0 (m + 1)) j = none
      rw [hLookup_entsAsc,
        if_neg (show ¬(0 ≤ j ∧ j < 0 + (m + 1)) from by omega)]

/-! ## Derived operations: bulk push and pop -/

/-- Push every value of `vs`, in order. -/
def pushAll {α : Type} [Inhabited α] (σ : QS α) (vs : List α) : QS α :=
  vs.foldl qpush σ

/-- Pop `k` times, collecting results in order. -/
def popN {α : Type} [Inhabited α] : Nat → QS α → QS α × List (Option α)
  | 0, σ => (σ, [])
  | k + 1, σ =>
    let p := dequeue σ
    let q := popN k p.1
    (q.1, p.2 :: q.2)

theorem pushAll_sim {α : Type} [Inhabited α] :
    ∀ (vs : List α) (σ : QS α) (ch : List Nat), QInv σ ch →
      ∃ ch', QInv (pushAll σ vs) ch' ∧
        absV (pushAll σ vs) ch' = absV σ ch ++ vs := by
  intro vs
  induction vs with
  | nil => intro σ ch h; exact ⟨ch, h, by simp [pushAll]⟩
  | cons v vs ih =>
    intro σ ch h
    obtain ⟨i, h1, h2, _, _, _⟩ := qpush_sim σ ch v h
    obtain ⟨ch', h1', h2'⟩ := ih (qpush σ v) (ch ++ [i]) h1
    refine ⟨ch', h1', ?_⟩
    have hstep : pushAll σ (v :: vs) = pushAll (qpush σ v) vs := rfl
    rw [hstep, h2', h2]
    simp

theorem popN_sim {α : Type} [Inhabited α] :
    ∀ (as : List α) (σ : QS α) (ch : List Nat), QInv σ ch →
      absV σ ch = as → (popN as.length σ).2 = as.map some := by
  intro as
  induction as with
  | nil => intro σ ch _ _; rfl
  | cons a rest ih =>
    intro σ ch h habs
    obtain ⟨c0, tl, rfl⟩ := List.exists_cons_of_ne_nil h.hne
    cases tl with
    | nil => simp [absV] at habs
    | cons c1 tl' =>
      have habs' : valAt σ.hp c1 :: tl'.map (valAt σ.hp) = a :: rest := by
        simpa [absV] using habs
      have hv : valAt σ.hp c1 = a := (List.cons_eq_cons.mp habs').1
      have hrest : tl'.map (valAt σ.hp) = rest := (List.cons_eq_cons.mp habs').2
      obtain ⟨hd2, hinv2, hhp2, _, _⟩ := dequeue_cons σ c0 c1 tl' h
      show (popN (rest.length + 1) σ).2 = _
      rw [popN]
      have hr := ih (dequeue σ).1 (c1 :: tl') hinv2
        (by
          show ((c1 :: tl').drop 1).map (valAt (dequeue σ).1.hp) = rest
          rw [hhp2]
          simpa using hrest)
      simp only [List.map_cons]
      rw [hd2, hv, hr]

/-- C3: for every sequence of pushes of distinct identifiers followed by an
equal number of pops on a single-threaded queue, the pops all succeed and
return exactly those identifiers in insertion order. -/
theorem c3_fifo_round_trip (c : Nat) (vs : List Nat) (_hd : vs.Nodup) :
    (popN vs.length (pushAll (qInit Nat c) vs)).2 = vs.map some := by
  obtain ⟨hinv, habs⟩ := qInit_inv Nat c
  obtain ⟨ch', h1, h2⟩ := pushAll_sim vs (qInit Nat c) [c - 1] hinv
  exact popN_sim vs _ ch' h1 (by rw [h2, habs]; simp)

/-- Witness for `c3_fifo_round_trip` at a concrete input. -/
theorem c3_witness :
    ([10, 20] : List Nat).Nodup ∧
      (popN 2 (pushAll (qInit Nat 1) [10, 20])).2 = [some 10, some 20] :=
  ⟨by decide, c3_fifo_round_trip 1 [10, 20] (by decide)⟩

/-! ## Operation sequences (for the emptiness law) -/

/-- A single-threaded queue request: a push of a value, or a pop. -/
inductive QOp (α : Type) where
  | push (v : α)
  | pop

/-- Run a request sequence; returns the final state, the number of pushes,
and the number of *successful* pops. -/
def runOps {α : Type} [Inhabited α] : QS α → List (QOp α) → QS α × Nat × Nat
  | σ, [] => (σ, 0, 0)
  | σ, .push v :: ops =>
    let r := runOps (qpush σ v) ops
    (r.1, r.2.1 + 1, r.2.2)
  | σ, .pop :: ops =>
    let p := dequeue σ
    let r := runOps p.1 ops
    (r.1, r.2.1, r.2.2 + (if p.2.isSome then 1 else 0))

theorem absV_length {α : Type} [Inhabited α] (σ : QS α) (ch : List Nat) :
    (absV σ ch).length = ch.length - 1 := by
  simp [absV]

theorem runOps_sim {α : Type} [Inhabited α] :
    ∀ (ops : List (QOp α)) (σ : QS α) (ch : List Nat), QInv σ ch →
      ∃ ch', QInv (runOps σ ops).1 ch' ∧
        (absV (runOps σ ops).1 ch').length + (runOps σ ops).2.2 =
          (absV σ ch).length + (runOps σ ops).2.1 := by
  intro ops
  induction ops with
  | nil => intro σ ch h; exact ⟨ch, h, by simp [runOps]⟩
  | cons op ops ih =>
    intro σ ch h
    cases op with
    | push v =>
      obtain ⟨i, h1, h2, _, _, _⟩ := qpush_sim σ ch v h
      obtain ⟨ch', h1', h2'⟩ := ih (qpush σ v) (ch ++ [i]) h1
      refine ⟨ch', h1', ?_⟩
      show (absV (runOps (qpush σ v) ops).1 ch').length +
          (runOps (qpush σ v) ops).2.2 =
        _ + ((runOps (qpush σ v) ops).2.1 + 1)
      have hlen2 : (absV (qpush σ v) (ch ++ [i])).length =
          (absV σ ch).length + 1 := by rw [h2]; simp
      omega
    | pop =>
      obtain ⟨c0, tl, rfl⟩ := List.exists_cons_of_ne_nil h.hne
      cases tl with
      | nil =>
        have hde := dequeue_empty σ c0 h
        have hde1 : (dequeue σ).1 = σ := by rw [hde]
        have hde2 : (dequeue σ).2 = none := by rw [hde]
        obtain ⟨ch', h1', h2'⟩ := ih (dequeue σ).1 [c0]
          (by rw [hde1]; exact h)
        refine ⟨ch', h1', ?_⟩
        show (absV (runOps (dequeue σ).1 ops).1 ch').length +
            ((runOps (dequeue σ).1 ops).2.2 +
              (if (dequeue σ).2.isSome then 1 else 0)) =
          (absV σ [c0]).length + (runOps (dequeue σ).1 ops).2.1
        rw [hde1] at h2' ⊢
        rw [hde2]
        simp only [Option.isSome_none, Bool.false_eq_true, if_false]
        omega
      | cons c1 tl' =>
        obtain ⟨hd2, hinv2, hhp2, _, _⟩ := dequeue_cons σ c0 c1 tl' h
        obtain ⟨ch', h1', h2'⟩ := ih (dequeue σ).1 (c1 :: tl') hinv2
        refine ⟨ch', h1', ?_⟩
        show (absV (runOps (dequeue σ).1 ops).1 ch').length +
            ((runOps (dequeue σ).1 ops).2.2 +
              (if (dequeue σ).2.isSome then 1 else 0)) =
          (absV σ (c0 :: c1 :: tl')).length + (runOps (dequeue σ).1 ops).2.1
        rw [hd2]
        simp only [Option.isSome_some, if_true]
        have e1 : (absV (dequeue σ).1 (c1 :: tl')).length =
            (c1 :: tl').length - 1 := absV_length _ _
        have e2 : (absV σ (c0 :: c1 :: tl')).length =
            (c0 :: c1 :: tl').length - 1 := absV_length _ _
        simp only [List.length_cons] at e1 e2
        omega

/-- Under the invariant, `empty()` is true exactly when the chain is the
bare sentinel. -/
theorem qEmpty_iff {α : Type} (σ : QS α) (ch : List Nat) (h : QInv σ ch) :
    qEmpty σ = true ↔ ch.length = 1 := by
  constructor
  · intro he
    by_contra hne1
    obtain ⟨c0, tl, rfl⟩ := List.exists_cons_of_ne_nil h.hne
    cases tl with
    | nil => exact hne1 rfl
    | cons c1 rest =>
      have ha : σ.head.addr = some c0 := ((chainB_cons _ _ _ _).mp h.hch).1
      have hchnd := (List.nodup_append.mp h.hnodup).1
      have hc0 : c0 ∉ c1 :: rest := (List.nodup_cons.mp hchnd).1
      have hlq : σ.tail.addr = some ((c1 :: rest).getLast (by simp)) := by
        rw [h.htailaddr, List.getLast?_cons_cons,
          List.getLast?_eq_getLast _ (by simp)]
      have hht : σ.head = σ.tail := by simpa [qEmpty] using he
      rw [hht, hlq] at ha
      have hc0e : c0 = (c1 :: rest).getLast (by simp) :=
        (Option.some_injective _ ha).symm
      exact hc0 (hc0e ▸ List.getLast_mem (by simp))
  · intro h1
    obtain ⟨c0, tl, rfl⟩ := List.exists_cons_of_ne_nil h.hne
    cases tl with
    | cons _ _ => simp at h1
    | nil =>
      have := head_eq_tail_of_singleton σ c0 h
      simp [qEmpty, this]

/-- C5: `empty()` is exactly the whole-word comparison `head_ == tail_`;
and after any single-threaded sequence of pushes and pops starting from a
freshly constructed queue, `empty()` is true exactly when the number of
successful pops equals the number of pushes. -/
theorem c5_empty_iff_balanced (c : Nat) (ops : List (QOp Nat)) :
    (∀ σ : QS Nat, qEmpty σ = true ↔ σ.head = σ.tail) ∧
      (qEmpty (runOps (qInit Nat c) ops).1 = true ↔
        (runOps (qInit Nat c) ops).2.2 = (runOps (qInit Nat c) ops).2.1) := by
  constructor
  · intro σ; simp [qEmpty]
  · obtain ⟨hinv, habs⟩ := qInit_inv Nat c
    obtain ⟨ch', h1', h2'⟩ := runOps_sim ops (qInit Nat c) [c - 1] hinv
    rw [qEmpty_iff _ ch' h1']
    have hlen0 : (absV (qInit Nat c) [c - 1]).length = 0 := by
      rw [habs]; rfl
    rw [hlen0] at h2'
    have habs' := absV_length (runOps (qInit Nat c) ops).1 ch'
    have hpos : 1 ≤ ch'.length := List.length_pos.mpr h1'.hne
    omega

/-- Capacity accounting for a run of pushes: each push consumes a pooled
node while any remain, and allocates (incrementing `capacity_`) afterwards. -/
theorem pushAll_capacity {α : Type} [Inhabited α] :
    ∀ (vs : List α) (σ : QS α) (ch : List Nat), QInv σ ch →
      (pushAll σ vs).capacity + min vs.length σ.free.length =
        σ.capacity + vs.length := by
  intro vs
  induction vs with
  | nil => intro σ ch _; simp [pushAll]
  | cons v vs ih =>
    intro σ ch h
    obtain ⟨i, h1, _, hfree, hcap, _⟩ := qpush_sim σ ch v h
    have hstep : pushAll σ (v :: vs) = pushAll (qpush σ v) vs := rfl
    rw [hstep]
    have hi := ih (qpush σ v) (ch ++ [i]) h1
    rw [hfree] at hi
    cases hf : σ.free with
    | nil =>
      rw [hf] at hi hcap
      rw [if_pos rfl] at hcap
      simp only [List.drop_nil, List.length_nil, Nat.min_zero,
        Nat.add_zero] at hi
      simp only [List.length_cons, List.length_nil, Nat.min_zero]
      omega
    | cons e rest =>
      rw [hf] at hi hcap
      have hne : ¬(e :: rest = ([] : List TW)) := by simp
      rw [if_neg hne] at hcap
      simp only [List.drop_succ_cons, List.drop_zero] at hi
      simp only [List.length_cons]
      omega

/-- C6, amended: with initial capacity `C ≥ 1`, pushing `C + n` values
without intervening pops performs `n + 1` allocations — one per insertion
beyond the `C - 1` nodes actually left in the pool after construction (the
sentinel was taken from the pool) — so `capacity()` ends at `C + n + 1`,
which is still at least `C + n` as the spec's test expects. -/
theorem c6_amended (c n : Nat) (vs : List Nat) (hc : 1 ≤ c)
    (hlen : vs.length = c + n) :
    (pushAll (qInit Nat c) vs).capacity = c + n + 1 ∧
      c + n ≤ (pushAll (qInit Nat c) vs).capacity := by
  obtain ⟨hinv, _⟩ := qInit_inv Nat c
  have hcap := pushAll_capacity vs (qInit Nat c) [c - 1] hinv
  obtain ⟨h1, h2, _, _⟩ := qInit_stats Nat c
  rw [h1, h2, hlen] at hcap
  constructor <;> omega

/-- Witness for `c6_amended` at `C = 1`, `n = 0`. -/
theorem c6_amended_witness :
    (pushAll (qInit Nat 1) [5]).capacity = 1 + 0 + 1 ∧
      1 + 0 ≤ (pushAll (qInit Nat 1) [5]).capacity :=
  c6_amended 1 0 [5] (by decide) (by decide)

/-! ## Construction failure: the catch-all destroys and rethrows -/

theorem mem_entsAsc {α : Type} [Inhabited α] :
    ∀ {k b : Nat} {p : Nat × Node α}, p ∈ entsAsc α b k →
      b ≤ p.1 ∧ p.1 < b + k := by
  intro k
  induction k with
  | zero => intro b p hp; exact absurd hp (List.not_mem_nil p)
  | succ k ih =>
    intro b p hp
    rcases List.mem_cons.mp hp with h0 | h1
    · rw [h0]; omega
    · have := ih h1
      omega

/-- Draining a pool whose stored pointers cover every allocated node deletes
the whole heap (the `while (!free_.empty()) { pop; delete }` loop of
`queue<T>::destroy`). -/
theorem fold_remove_nil {α : Type} :
    ∀ (ws : List TW) (hp : Heap α),
      (∀ p ∈ hp, some p.1 ∈ ws.map TW.addr) →
      ws.foldl (fun h e => match e.addr with
        | some i => hRemove h i
        | none => h) hp = [] := by
  intro ws
  induction ws with
  | nil =>
    intro hp h
    cases hp with
    | nil => rfl
    | cons q qs => exact absurd (h q (by simp)) (by simp)
  | cons w ws ih =>
    intro hp h
    show List.foldl _ (match w.addr with
      | some i => hRemove hp i
      | none => hp) ws = []
    cases hw : w.addr with
    | none =>
      apply ih
      intro p hp'
      have hmem := h p hp'
      simp only [List.map_cons, List.mem_cons, hw] at hmem
      rcases hmem with h1 | h2
      · exact absurd h1 (by simp)
      · exact h2
    | some i =>
      apply ih
      intro p hp'
      have hpmem : p ∈ hp := (List.mem_filter.mp hp').1
      have hpne : p.1 ≠ i := by
        have := (List.mem_filter.mp hp').2
        simpa using this
      have hmem := h p hpmem
      simp only [List.map_cons, List.mem_cons, hw] at hmem
      rcases hmem with h1 | h2
      · exact absurd (Option.some_injective _ h1) hpne
      · exact h2

/-- If the `f`-th allocation fails (`f` allocations having succeeded), the
provisioning loop escapes with exactly the first `f` nodes provisioned. -/
theorem provisionF_error {α : Type} [Inhabited α] :
    ∀ (f k idx : Nat) (σ : QS α), f < k →
      provisionF (idx + f) k idx σ = .error (provision f σ) := by
  intro f
  induction f with
  | zero =>
    intro k idx σ hk
    obtain ⟨k', rfl⟩ : ∃ k', k = k' + 1 := ⟨k - 1, by omega⟩
    show provisionF (idx + 0) (k' + 1) idx σ = _
    rw [provisionF, if_pos (by omega)]
    rfl
  | succ f ih =>
    intro k idx σ hk
    obtain ⟨k', rfl⟩ : ∃ k', k = k' + 1 := ⟨k - 1, by omega⟩
    show provisionF (idx + (f + 1)) (k' + 1) idx σ = _
    rw [provisionF, if_neg (by omega)]
    have harg : idx + (f + 1) = (idx + 1) + f := by omega
    rw [harg, ih k' (idx + 1) _ (by omega)]
    rfl

/-- A failing construction destroys (deleting every provisioned node) and
rethrows: the error state has an empty heap and an empty pool. -/
theorem qInitF_error_spec (α : Type) [Inhabited α] (n f : Nat)
    (hf : f < n) :
    ∃ σe : QS α, qInitF α n f = .error σe ∧ σe.hp = [] ∧ σe.free = [] := by
  have herr := provisionF_error f n 0
    (⟨n, nullTW, nullTW, [], [], 0⟩ : QS α) hf
  rw [Nat.zero_add] at herr
  refine ⟨qDestroy (provision f (⟨n, nullTW, nullTW, [], [], 0⟩ : QS α)),
    ?_, ?_, rfl⟩
  · rw [qInitF, herr]
  · show (provision f (⟨n, nullTW, nullTW, [], [], 0⟩ : QS α)).free.foldl
      _ (provision f (⟨n, nullTW, nullTW, [], [], 0⟩ : QS α)).hp = []
    rw [provision_spec]
    apply fold_remove_nil
    intro p hp'
    show some p.1 ∈ (((idsDesc 0 f).map (fun i => (⟨some i, 0⟩ : TW)) ++
      []).map TW.addr)
    have hp'' : p ∈ entsAsc α 0 f := by
      simpa using hp'
    have hk := mem_entsAsc hp''
    rw [List.append_nil, List.map_map]
    refine List.mem_map.mpr ⟨p.1, ?_, rfl⟩
    rw [mem_idsDesc]
    omega

/-- C2, amended: construction with capacity `N` creates `N` nodes and
pushes them onto the free pool, then acquires the sentinel through
`alloc_node` — popping it back *out of that pool* when `N > 0` (allocating
a fresh node, and bumping `capacity_`, only when `N = 0`).  So `max N 1`
nodes exist in total, `capacity()` is `max N 1`, `head_ = tail_` refer to
the sentinel, and the pool retains `N - 1` nodes.  If any allocation during
construction fails, every already-allocated node is deleted and the failure
propagates. -/
theorem c2_amended (n f : Nat) (hf : f < n) :
    (qInit Nat n).hp.length = max n 1 ∧
      (qInit Nat n).capacity = max n 1 ∧
      (qInit Nat n).head = (qInit Nat n).tail ∧
      (qInit Nat n).free.length = n - 1 ∧
      ∃ σe : QS Nat, qInitF Nat n f = .error σe ∧
        σe.hp = [] ∧ σe.free = [] := by
  obtain ⟨h1, h2, h3, h4⟩ := qInit_stats Nat n
  exact ⟨h3, h1, h4, h2, qInitF_error_spec Nat n f hf⟩

/-- Witness for `c2_amended` at `N = 2`, failure index 1. -/
theorem c2_amended_witness :
    (qInit Nat 2).hp.length = max 2 1 ∧
      (qInit Nat 2).capacity = max 2 1 ∧
      (qInit Nat 2).head = (qInit Nat 2).tail ∧
      (qInit Nat 2).free.length = 2 - 1 ∧
      ∃ σe : QS Nat, qInitF Nat 2 1 = .error σe ∧
        σe.hp = [] ∧ σe.free = [] :=
  c2_amended 2 1 (by decide)

/-- The capacity accounting relation: `capacity_` = pool size + chain
length (sentinel included). -/
def QCap {α : Type} (σ : QS α) (ch : List Nat) : Prop :=
  σ.capacity = σ.free.length + ch.length

/-- C7, amended: under the sequential invariant, `capacity_` equals pool
size plus chain length (sentinel included); it never decreases across
`push`/`emplace` (successful path) and `pop`, and construction, push and
pop all re-establish both the structural invariant and the accounting
equality.  (A *throwing* `emplace` breaks the equality: it deletes the
acquired node without decrementing `capacity_` — see the counterexample.) -/
theorem c7_amended (σ : QS Nat) (ch : List Nat) (v : Nat) (m : Nat)
    (h : QInv σ ch) (hc : QCap σ ch) :
    σ.capacity = σ.free.length + ch.length ∧
      σ.capacity ≤ (qpush σ v).capacity ∧
      σ.capacity ≤ (dequeue σ).1.capacity ∧
      (∃ ch', QInv (qpush σ v) ch' ∧ QCap (qpush σ v) ch') ∧
      (∃ ch', QInv (dequeue σ).1 ch' ∧ QCap (dequeue σ).1 ch') ∧
      (∃ ch0, QInv (qInit Nat m) ch0 ∧ QCap (qInit Nat m) ch0) := by
  obtain ⟨i, h1, _, hfree, hcap, _⟩ := qpush_sim σ ch v h
  have hpushcap : QCap (qpush σ v) (ch ++ [i]) := by
    show (qpush σ v).capacity = (qpush σ v).free.length + (ch ++ [i]).length
    rw [hcap, hfree, List.length_append]
    cases hf : σ.free with
    | nil =>
      have hcc : σ.capacity = ([] : List TW).length + ch.length := by
        rw [← hf]; exact hc
      rw [if_pos rfl]
      simp only [List.length_nil, Nat.zero_add] at hcc
      simp only [List.drop_nil, List.length_nil, List.length_cons,
        List.length_nil]
      omega
    | cons e rest =>
      have hcc : σ.capacity = (e :: rest).length + ch.length := by
        rw [← hf]; exact hc
      rw [if_neg (by simp)]
      simp only [List.length_cons] at hcc
      simp only [List.drop_succ_cons, List.drop_zero, List.length_cons,
        List.length_nil]
      omega
  have hpop : σ.capacity ≤ (dequeue σ).1.capacity ∧
      ∃ ch', QInv (dequeue σ).1 ch' ∧ QCap (dequeue σ).1 ch' := by
    obtain ⟨c0, tl, rfl⟩ := List.exists_cons_of_ne_nil h.hne
    cases tl with
    | nil =>
      rw [dequeue_empty σ c0 h]
      exact ⟨le_refl _, ⟨[c0], h, hc⟩⟩
    | cons c1 rest =>
      obtain ⟨_, hinv2, _, hcap2, hfree2⟩ := dequeue_cons σ c0 c1 rest h
      refine ⟨by rw [hcap2], ⟨c1 :: rest, hinv2, ?_⟩⟩
      show (dequeue σ).1.capacity = (dequeue σ).1.free.length + _
      rw [hcap2, hfree2]
      have hcc : σ.capacity = σ.free.length + (c0 :: c1 :: rest).length := hc
      simp only [List.length_cons] at *
      omega
  have hinitcap : QCap (qInit Nat m) [m - 1] := by
    show (qInit Nat m).capacity = (qInit Nat m).free.length + 1
    obtain ⟨h1', h2', _, _⟩ := qInit_stats Nat m
    rw [h1', h2']
    omega
  refine ⟨hc, ?_, hpop.1, ⟨ch ++ [i], h1, hpushcap⟩, hpop.2,
    ⟨[m - 1], (qInit_inv Nat m).1, hinitcap⟩⟩
  rw [hcap]
  exact Nat.le_add_right _ _

/-- Witness for `c7_amended` on a freshly constructed queue. -/
theorem c7_amended_witness :
    (qInit Nat 1).capacity = (qInit Nat 1).free.length + [0].length ∧
      (qInit Nat 1).capacity ≤ (qpush (qInit Nat 1) 5).capacity ∧
      (qInit Nat 1).capacity ≤ (dequeue (qInit Nat 1)).1.capacity ∧
      (∃ ch', QInv (qpush (qInit Nat 1) 5) ch' ∧
        QCap (qpush (qInit Nat 1) 5) ch') ∧
      (∃ ch', QInv (dequeue (qInit Nat 1)).1 ch' ∧
        QCap (dequeue (qInit Nat 1)).1 ch') ∧
      (∃ ch0, QInv (qInit Nat 2) ch0 ∧ QCap (qInit Nat 2) ch0) :=
  c7_amended (qInit Nat 1) [0] 5 2 (qInit_inv Nat 1).1
    (show (qInit Nat 1).capacity =
        (qInit Nat 1).free.length + ([0] : List Nat).length from by decide)

/-! ## The sequential stack invariant (`mu::lf::stack<T>`) -/

/-- A heap entry's key is always found by lookup. -/
theorem hLookup_isSome_of_mem {α : Type} :
    ∀ {hp : Heap α} {p : Nat × Node α}, p ∈ hp →
      (hLookup hp p.1).isSome := by
  intro hp
  induction hp with
  | nil => intro p hp'; exact absurd hp' (List.not_mem_nil p)
  | cons q qs ih =>
    intro p hp'
    show (if q.1 = p.1 then some q.2 else hLookup qs p.1).isSome = true
    by_cases hq : q.1 = p.1
    · rw [if_pos hq]; rfl
    · rw [if_neg hq]
      rcases List.mem_cons.mp hp' with h0 | h1
      · exact absurd (congrArg Prod.fst h0.symm) hq
      · exact ih h1

/-- The stack values along a chain of node identifiers. -/
def sVals {α : Type} [Inhabited α] (σ : SS α) (st : List Nat) : List α :=
  st.map (valAt σ.hp)

/-- The sequential invariant of the public stack: `stack_` and `free_` are
well-formed disjoint chains over the heap, and the allocator counter bounds
every allocated identifier. -/
structure SInv {α : Type} (σ : SS α) (st fr : List Nat) : Prop where
  hst : chainB σ.hp σ.stackHd st = true
  hfr : chainB σ.hp σ.freeHd fr = true
  hnodup : (st ++ fr).Nodup
  hkeys : ∀ j, σ.nextId ≤ j → hLookup σ.hp j = none

/-- Reduction of `isPush` at a valid (non-null) pushed pointer. -/
theorem isPush_some {α : Type} (hp : Heap α) (hd e : TW) (i : Nat)
    (h : e.addr = some i) :
    isPush hp hd e = (hSetNext hp i hd, inctag e) := by
  simp [isPush, h]

/-- Under the invariant, `stack<T>::push` takes a node from the pool (or a
fresh one), writes the value, and links it as the new top. -/
theorem spush_sim {α : Type} [Inhabited α] (σ : SS α) (st fr : List Nat)
    (v : α) (h : SInv σ st fr) :
    ∃ i, SInv (spush σ v) (i :: st) (fr.drop 1) ∧
      sVals (spush σ v) (i :: st) = v :: sVals σ st := by
  obtain ⟨hst, hfr, hnodup, hkeys⟩ := h
  have hstlt : ∀ j ∈ st, (hLookup σ.hp j).isSome := chainB_mem_isSome hst
  have hdisj : st.Disjoint fr := (List.nodup_append.mp hnodup).2.2
  cases hfrl : fr with
  | nil =>
    -- pool chain empty: free head is null, isPop fails, fresh allocation
    have haddr : σ.freeHd.addr = none := by
      rw [hfrl] at hfr
      exact (chainB_nil _ _).mp hfr
    have hpopn : isPop σ.hp σ.freeHd = none := by
      simp [isPop, haddr]
    set nid := σ.nextId with hnid
    have hnone : hLookup σ.hp nid = none := hkeys nid le_rfl
    have hnidst : nid ∉ st := fun hc => by
      have := hstlt nid hc
      rw [hnone] at this
      simp at this
    have hsp :
        spush σ v =
          { σ with
              hp := hSetNext (hSetValue (σ.hp ++ [(nid, ⟨v, nullTW⟩)]) nid v)
                nid σ.stackHd
              stackHd := inctag ⟨some nid, 0⟩
              nextId := nid + 1 } := by
      rw [spush, hpopn]
      rfl
    refine ⟨nid, ⟨?_, ?_, ?_, ?_⟩, ?_⟩
    · rw [hsp]
      show chainB _ (inctag ⟨some nid, 0⟩) (nid :: st) = true
      refine (chainB_cons _ _ _ _).mpr ⟨rfl, ⟨v, σ.stackHd⟩, ?_, ?_⟩
      · rw [hLookup_hSetNext, if_pos rfl, hLookup_hSetValue, if_pos rfl]
        rw [hLookup_append_right _ hnone]
        simp [hLookup]
      · rw [chainB_hSetNext_outside _ _ _ _ _ hnidst, chainB_hSetValue]
        exact chainB_append_entry _ hst
    · rw [hsp]
      show chainB (hSetNext (hSetValue (σ.hp ++ [(nid, ⟨v, nullTW⟩)]) nid v)
        nid σ.stackHd) σ.freeHd [] = true
      rw [chainB_hSetNext_outside _ _ _ _ _ (by simp), chainB_hSetValue]
      exact (chainB_nil _ _).mpr haddr
    · have hnodup' : (st ++ ([] : List Nat)).Nodup := by
        rw [← hfrl]; exact hnodup
      simp only [List.append_nil] at hnodup'
      show (nid :: st ++ List.drop 1 ([] : List Nat)).Nodup
      simp only [List.drop_nil, List.append_nil]
      exact List.nodup_cons.mpr ⟨hnidst, hnodup'⟩
    · intro j hj
      rw [hsp] at hj ⊢
      have hj' : nid + 1 ≤ j := hj
      show hLookup (hSetNext (hSetValue _ nid v) nid σ.stackHd) j = none
      apply opt_none_of_isSome_false
      rw [isSome_hSetNext, isSome_hSetValue]
      rw [hLookup_append_right _ (hkeys j (by omega))]
      have : ¬(nid = j) := by omega
      simp [hLookup, this]
    · rw [hsp]
      show (nid :: st).map (valAt (hSetNext (hSetValue _ nid v) nid _)) =
        v :: st.map (valAt σ.hp)
      rw [List.map_cons]
      congr 1
      · rw [valAt_hSetNext, valAt_hSetValue_self _ _ _
          (by rw [hLookup_append_right _ hnone]; simp [hLookup])]
      · apply List.map_congr_left
        intro j hj
        have hjne : j ≠ nid := fun hc => hnidst (hc ▸ hj)
        rw [valAt_hSetNext, valAt_hSetValue_ne _ _ _ _ hjne,
          valAt_append_of_isSome _ (hstlt j hj)]
  | cons f0 fr' =>
    obtain ⟨haddr, nd0, hl0, hch0⟩ := (chainB_cons _ _ _ _).mp
      (by rw [hfrl] at hfr; exact hfr)
    have hf0st : f0 ∉ st := fun hc => hdisj hc (by rw [hfrl]; simp)
    have hf0fr : f0 ∉ fr' := by
      rw [hfrl] at hnodup
      have := (List.nodup_append.mp hnodup).2.1
      exact (List.nodup_cons.mp this).1
    have hpops : isPop σ.hp σ.freeHd =
        some (σ.hp, inctag (nextAt σ.hp σ.freeHd), σ.freeHd) := by
      simp [isPop, haddr]
    have hnx : nextAt σ.hp σ.freeHd = nd0.next := by
      simp only [nextAt, haddr, hl0]
    have hsp :
        spush σ v =
          { σ with
              hp := hSetNext (hSetValue σ.hp f0 v) f0 σ.stackHd
              freeHd := inctag nd0.next
              stackHd := inctag σ.freeHd } := by
      rw [spush, hpops, hnx]
      simp only [haddr]
      rw [isPush_some (hSetValue σ.hp f0 v) σ.stackHd σ.freeHd f0 haddr]
    refine ⟨f0, ⟨?_, ?_, ?_, ?_⟩, ?_⟩
    · rw [hsp]
      show chainB _ (inctag σ.freeHd) (f0 :: st) = true
      refine (chainB_cons _ _ _ _).mpr
        ⟨by show σ.freeHd.addr = some f0; exact haddr,
          ⟨v, σ.stackHd⟩, ?_, ?_⟩
      · rw [hLookup_hSetNext, if_pos rfl, hLookup_hSetValue, if_pos rfl,
          hl0]
        rfl
      · rw [chainB_hSetNext_outside _ _ _ _ _ hf0st, chainB_hSetValue]
        exact hst
    · rw [hsp]
      show chainB (hSetNext (hSetValue σ.hp f0 v) f0 σ.stackHd)
        (inctag nd0.next) fr' = true
      rw [chainB_addr_congr _ (inctag nd0.next) nd0.next rfl]
      rw [chainB_hSetNext_outside _ _ _ _ _ hf0fr, chainB_hSetValue]
      exact hch0
    · rw [hfrl] at hnodup
      show (f0 :: st ++ fr').Nodup
      have hperm : (st ++ f0 :: fr').Perm (f0 :: (st ++ fr')) :=
        List.perm_middle
      have hnd := hperm.nodup_iff.mp hnodup
      have hperm2 : (f0 :: st ++ fr').Perm (f0 :: (st ++ fr')) := by
        simp
      exact hperm2.nodup_iff.mpr hnd
    · intro j hj
      rw [hsp] at hj ⊢
      have hj' : σ.nextId ≤ j := hj
      show hLookup (hSetNext (hSetValue σ.hp f0 v) f0 σ.stackHd) j = none
      apply opt_none_of_isSome_false
      rw [isSome_hSetNext, isSome_hSetValue, hkeys j hj']
      rfl
    · rw [hsp]
      show (f0 :: st).map (valAt (hSetNext (hSetValue σ.hp f0 v) f0 _)) =
        v :: st.map (valAt σ.hp)
      rw [List.map_cons]
      congr 1
      · rw [valAt_hSetNext,
          valAt_hSetValue_self _ _ _ (by rw [hl0]; rfl)]
      · apply List.map_congr_left
        intro j hj
        have hjne : j ≠ f0 := fun hc => hf0st (hc ▸ hj)
        rw [valAt_hSetNext, valAt_hSetValue_ne _ _ _ _ hjne]

/-- Under the invariant, `stack<T>::pop` on an empty `stack_` chain
reports failure without touching the state. -/
theorem spop_nil {α : Type} [Inhabited α] (σ : SS α) (fr : List Nat)
    (h : SInv σ [] fr) : spop σ = (σ, none) := by
  have haddr : σ.stackHd.addr = none := (chainB_nil _ _).mp h.hst
  rw [spop]
  simp [isPop, haddr]

/-- Under the invariant, `stack<T>::pop` on a non-empty `stack_` chain
returns the top value, unlinks the top node (leaving it allocated but
unreferenced — the source neither deletes nor pools it), and resets its
stored value. -/
theorem spop_cons {α : Type} [Inhabited α] (σ : SS α) (i : Nat)
    (st' fr : List Nat) (h : SInv σ (i :: st') fr) :
    (spop σ).2 = some (valAt σ.hp i) ∧
      SInv (spop σ).1 st' fr ∧
      sVals (spop σ).1 st' = sVals σ st' := by
  obtain ⟨hst, hfr, hnodup, hkeys⟩ := h
  obtain ⟨haddr, nd0, hl0, hch0⟩ := (chainB_cons _ _ _ _).mp hst
  have hist : i ∉ st' := by
    have := (List.nodup_append.mp hnodup).1
    exact (List.nodup_cons.mp this).1
  have hifr : i ∉ fr := by
    have hd := (List.nodup_append.mp hnodup).2.2
    exact fun hc => hd (by simp) hc
  have hpops : isPop σ.hp σ.stackHd =
      some (σ.hp, inctag (nextAt σ.hp σ.stackHd), σ.stackHd) := by
    simp [isPop, haddr]
  have hnx : nextAt σ.hp σ.stackHd = nd0.next := by
    simp only [nextAt, haddr, hl0]
  have hv : valAtW σ.hp σ.stackHd = valAt σ.hp i := by
    simp only [valAtW, haddr, hl0, valAt]
  have hsp :
      spop σ =
        ({ σ with
            hp := hSetValue σ.hp i default
            stackHd := inctag nd0.next }, some (valAtW σ.hp σ.stackHd)) := by
    rw [spop, hpops, hnx]
    simp only [haddr]
  rw [hsp]
  refine ⟨by rw [hv], ⟨?_, ?_, ?_, ?_⟩, ?_⟩
  · show chainB (hSetValue σ.hp i default) (inctag nd0.next) st' = true
    rw [chainB_hSetValue,
      chainB_addr_congr _ (inctag nd0.next) nd0.next rfl]
    exact hch0
  · show chainB (hSetValue σ.hp i default) σ.freeHd fr = true
    rw [chainB_hSetValue]
    exact hfr
  · have := (List.nodup_cons.mp
      (by simpa using hnodup : (i :: (st' ++ fr)).Nodup)).2
    exact this
  · intro j hj
    have hj' : σ.nextId ≤ j := hj
    show hLookup (hSetValue σ.hp i default) j = none
    apply opt_none_of_isSome_false
    rw [isSome_hSetValue, hkeys j hj']
    rfl
  · show st'.map (valAt (hSetValue σ.hp i default)) = st'.map (valAt σ.hp)
    apply List.map_congr_left
    intro j hj
    exact valAt_hSetValue_ne _ _ _ _ (fun hc => hist (hc ▸ hj))

/-- One provisioning step of the stack constructor preserves the invariant,
adding the fresh node on top of the pool; iterating yields the pool
`idsDesc`. -/
theorem sProvision_inv {α : Type} [Inhabited α] :
    ∀ (k : Nat) (σ : SS α) (st fr : List Nat), SInv σ st fr →
      SInv (sProvision k σ) st (idsDesc σ.nextId k ++ fr) ∧
      (sProvision k σ).stackHd = σ.stackHd ∧
      (sProvision k σ).nextId = σ.nextId + k ∧
      sVals (sProvision k σ) st = sVals σ st ∧
      (sProvision k σ).hp.length = σ.hp.length + k ∧
      (∀ p ∈ (sProvision k σ).hp,
        p.1 < σ.nextId ∨ (σ.nextId ≤ p.1 ∧ p.1 < σ.nextId + k)) := by
  intro k
  induction k with
  | zero =>
    intro σ st fr h
    refine ⟨by simpa [idsDesc] using h, rfl, rfl, rfl, rfl, ?_⟩
    intro p hp'
    left
    by_contra hge
    have hnone : hLookup σ.hp p.1 = none := h.hkeys p.1 (by omega)
    have hsome : (hLookup σ.hp p.1).isSome :=
      hLookup_isSome_of_mem (show p ∈ σ.hp from hp')
    rw [hnone] at hsome
    simp at hsome
  | succ k ih =>
    intro σ st fr h
    obtain ⟨hst, hfr, hnodup, hkeys⟩ := h
    set b := σ.nextId with hb
    have hnone : hLookup σ.hp b = none := hkeys b le_rfl
    have hbst : b ∉ st := fun hc => by
      have := chainB_mem_isSome hst b hc
      rw [hnone] at this
      simp at this
    have hbfr : b ∉ fr := fun hc => by
      have := chainB_mem_isSome hfr b hc
      rw [hnone] at this
      simp at this
    have hlb : hLookup (σ.hp ++ [(b, (⟨default, nullTW⟩ : Node α))]) b =
        some ⟨default, nullTW⟩ := by
      rw [hLookup_append_right _ hnone]
      simp [hLookup]
    have hstep :
        sProvision (k + 1) σ =
          sProvision k
            { σ with
                hp := hSetNext (σ.hp ++ [(b, ⟨default, nullTW⟩)]) b σ.freeHd
                freeHd := inctag ⟨some b, 0⟩
                nextId := b + 1 } := by
      rw [sProvision]
      rw [isPush_some _ _ _ b rfl]
    set σ' : SS α :=
      { σ with
          hp := hSetNext (σ.hp ++ [(b, ⟨default, nullTW⟩)]) b σ.freeHd
          freeHd := inctag ⟨some b, 0⟩
          nextId := b + 1 } with hσ'
    have hinv' : SInv σ' st (b :: fr) := by
      refine ⟨?_, ?_, ?_, ?_⟩
      · show chainB (hSetNext (σ.hp ++ [(b, ⟨default, nullTW⟩)]) b σ.freeHd)
          σ.stackHd st = true
        rw [chainB_hSetNext_outside _ _ _ _ _ hbst]
        exact chainB_append_entry _ hst
      · show chainB (hSetNext (σ.hp ++ [(b, ⟨default, nullTW⟩)]) b σ.freeHd)
          (inctag ⟨some b, 0⟩) (b :: fr) = true
        refine (chainB_cons _ _ _ _).mpr ⟨rfl, ⟨default, σ.freeHd⟩, ?_, ?_⟩
        · rw [hLookup_hSetNext, if_pos rfl, hlb]
          rfl
        · rw [chainB_hSetNext_outside _ _ _ _ _ hbfr]
          exact chainB_append_entry _ hfr
      · have hperm : (st ++ b :: fr).Perm (b :: (st ++ fr)) :=
          List.perm_middle
        rw [hperm.nodup_iff]
        exact List.nodup_cons.mpr
          ⟨fun hc => by
            rcases List.mem_append.mp hc with h1 | h2
            · exact hbst h1
            · exact hbfr h2, hnodup⟩
      · intro j hj
        have hj' : b + 1 ≤ j := hj
        show hLookup (hSetNext (σ.hp ++ [(b, ⟨default, nullTW⟩)]) b
          σ.freeHd) j = none
        apply opt_none_of_isSome_false
        rw [isSome_hSetNext]
        rw [hLookup_append_right _ (hkeys j (by omega))]
        have : ¬(b = j) := by omega
        simp [hLookup, this]
    obtain ⟨h1, h2, h3, h4, h5, h6⟩ := ih σ' st (b :: fr) hinv'
    rw [hstep]
    refine ⟨?_, h2, by rw [h3]; show b + 1 + k = b + (k + 1); omega, ?_,
      ?_, ?_⟩
    · have harr : idsDesc (b + 1) k ++ (b :: fr) =
          idsDesc b (k + 1) ++ fr := by
        rw [idsDesc_snoc]
        simp
      rw [← harr]
      exact h1
    · rw [h4]
      show st.map (valAt (hSetNext (σ.hp ++ [(b, ⟨default, nullTW⟩)]) b
        σ.freeHd)) = st.map (valAt σ.hp)
      apply List.map_congr_left
      intro j hj
      rw [valAt_hSetNext]
      exact valAt_append_of_isSome _ (chainB_mem_isSome hst j hj)
    · rw [h5]
      show (hSetNext (σ.hp ++ [(b, ⟨default, nullTW⟩)]) b
        σ.freeHd).length + k = σ.hp.length + (k + 1)
      rw [hSetNext, List.length_map, List.length_append]
      simp
      omega
    · intro p hp'
      rcases h6 p hp' with hlt | hrange
      · -- p.1 < σ'.nextId = b + 1
        have hlt' : p.1 < b + 1 := hlt
        by_cases hpb : p.1 = b
        · right; omega
        · left; omega
      · right
        have hr1 : b + 1 ≤ p.1 := hrange.1
        have hr2 : p.1 < b + 1 + k := hrange.2
        omega

/-- The invariant of a freshly constructed stack: empty LIFO, pool
`k - 1 … 0`. -/
theorem sInit_inv (α : Type) [Inhabited α] (k : Nat) :
    SInv (sInit α k) [] (idsDesc 0 k) ∧
      (sInit α k).stackHd = nullTW ∧
      (sInit α k).hp.length = k := by
  have h0 : SInv (⟨nullTW, nullTW, [], 0⟩ : SS α) [] [] := by
    refine ⟨rfl, rfl, by simp, fun j _ => rfl⟩
  obtain ⟨h1, h2, _, _, h5, _⟩ := sProvision_inv k
    (⟨nullTW, nullTW, [], 0⟩ : SS α) [] [] h0
  refine ⟨by simpa using h1, h2, by simpa using h5⟩

/-- Push every value of `vs` onto the stack, in order. -/
def spushAll {α : Type} [Inhabited α] (σ : SS α) (vs : List α) : SS α :=
  vs.foldl spush σ

/-- Pop the stack `k` times, collecting results in order. -/
def spopN {α : Type} [Inhabited α] : Nat → SS α → SS α × List (Option α)
  | 0, σ => (σ, [])
  | k + 1, σ =>
    let p := spop σ
    let q := spopN k p.1
    (q.1, p.2 :: q.2)

theorem spushAll_sim {α : Type} [Inhabited α] :
    ∀ (vs : List α) (σ : SS α) (st fr : List Nat), SInv σ st fr →
      ∃ st' fr', SInv (spushAll σ vs) st' fr' ∧
        sVals (spushAll σ vs) st' = vs.reverse ++ sVals σ st := by
  intro vs
  induction vs with
  | nil => intro σ st fr h; exact ⟨st, fr, h, by simp [spushAll]⟩
  | cons v vs ih =>
    intro σ st fr h
    obtain ⟨i, h1, h2⟩ := spush_sim σ st fr v h
    obtain ⟨st', fr', h1', h2'⟩ := ih (spush σ v) (i :: st) (fr.drop 1) h1
    refine ⟨st', fr', h1', ?_⟩
    have hstep : spushAll σ (v :: vs) = spushAll (spush σ v) vs := rfl
    rw [hstep, h2', h2]
    simp

theorem spopN_sim {α : Type} [Inhabited α] :
    ∀ (as : List α) (σ : SS α) (st fr : List Nat), SInv σ st fr →
      sVals σ st = as → (spopN as.length σ).2 = as.map some := by
  intro as
  induction as with
  | nil => intro σ st fr _ _; rfl
  | cons a rest ih =>
    intro σ st fr h habs
    cases st with
    | nil => simp [sVals] at habs
    | cons i st' =>
      have habs' : valAt σ.hp i :: st'.map (valAt σ.hp) = a :: rest := by
        simpa [sVals] using habs
      have hv : valAt σ.hp i = a := (List.cons_eq_cons.mp habs').1
      have hrest : st'.map (valAt σ.hp) = rest :=
        (List.cons_eq_cons.mp habs').2
      obtain ⟨hd2, hinv2, hvals2⟩ := spop_cons σ i st' fr h
      show (spopN (rest.length + 1) σ).2 = _
      rw [spopN]
      simp only [List.map_cons]
      rw [hd2, hv]
      rw [ih (spop σ).1 st' fr hinv2 (by rw [hvals2]; exact hrest)]

/-- C8: for every sequence of pushes of distinct identifiers followed by an
equal number of pops on a single-threaded stack, the pops all succeed and
return those identifiers in reverse insertion order. -/
theorem c8_lifo_round_trip (c : Nat) (vs : List Nat) (_hd : vs.Nodup) :
    (spopN vs.length (spushAll (sInit Nat c) vs)).2 =
      vs.reverse.map some := by
  obtain ⟨hinv, _, _⟩ := sInit_inv Nat c
  obtain ⟨st', fr', h1, h2⟩ := spushAll_sim vs (sInit Nat c) []
    (idsDesc 0 c) hinv
  have hlen : vs.length = vs.reverse.length := by simp
  rw [hlen]
  exact spopN_sim vs.reverse _ st' fr' h1 (by rw [h2]; simp [sVals])

/-- Witness for `c8_lifo_round_trip` at a concrete input. -/
theorem c8_witness :
    ([10, 20] : List Nat).Nodup ∧
      (spopN 2 (spushAll (sInit Nat 1) [10, 20])).2 = [some 20, some 10] :=
  ⟨by decide, c8_lifo_round_trip 1 [10, 20] (by decide)⟩

/-- If the `f`-th allocation fails, the stack's provisioning loop escapes
with exactly `f` nodes pooled. -/
theorem sProvisionF_error {α : Type} [Inhabited α] :
    ∀ (f k idx : Nat) (σ : SS α), f < k →
      sProvisionF (idx + f) k idx σ = .error (sProvision f σ) := by
  intro f
  induction f with
  | zero =>
    intro k idx σ hk
    obtain ⟨k', rfl⟩ : ∃ k', k = k' + 1 := ⟨k - 1, by omega⟩
    show sProvisionF (idx + 0) (k' + 1) idx σ = _
    rw [sProvisionF, if_pos (by omega)]
    rfl
  | succ f ih =>
    intro k idx σ hk
    obtain ⟨k', rfl⟩ : ∃ k', k = k' + 1 := ⟨k - 1, by omega⟩
    show sProvisionF (idx + (f + 1)) (k' + 1) idx σ = _
    rw [sProvisionF, if_neg (by omega)]
    have harg : idx + (f + 1) = (idx + 1) + f := by omega
    rw [harg, ih k' (idx + 1) _ (by omega)]
    rfl

/-- Draining a pool chain deletes exactly its nodes and nulls the pool
head, leaving `stack_` untouched. -/
theorem sDrain_spec {α : Type} [Inhabited α] :
    ∀ (fr : List Nat) (σ : SS α) (fuel : Nat),
      chainB σ.hp σ.freeHd fr = true → fr.Nodup → fr.length ≤ fuel →
      (sDrain fuel σ).hp =
          σ.hp.filter (fun p => decide (p.1 ∉ fr)) ∧
        (sDrain fuel σ).freeHd.addr = none ∧
        (sDrain fuel σ).stackHd = σ.stackHd := by
  intro fr
  induction fr with
  | nil =>
    intro σ fuel hch _ _
    have haddr : σ.freeHd.addr = none := (chainB_nil _ _).mp hch
    have hdr : sDrain fuel σ = σ := by
      cases fuel with
      | zero => rfl
      | succ m =>
        rw [sDrain]
        simp [isPop, haddr]
    rw [hdr]
    refine ⟨?_, haddr, rfl⟩
    exact (List.filter_eq_self.mpr (by intro p _; simp)).symm
  | cons f0 fr' ih =>
    intro σ fuel hch hnd hlen
    obtain ⟨m, rfl⟩ : ∃ m, fuel = m + 1 :=
      ⟨fuel - 1, by simp at hlen; omega⟩
    obtain ⟨haddr, nd0, hl0, hch0⟩ := (chainB_cons _ _ _ _).mp hch
    have hf0 : f0 ∉ fr' := (List.nodup_cons.mp hnd).1
    have hpops : isPop σ.hp σ.freeHd =
        some (σ.hp, inctag (nextAt σ.hp σ.freeHd), σ.freeHd) := by
      simp [isPop, haddr]
    have hnx : nextAt σ.hp σ.freeHd = nd0.next := by
      simp only [nextAt, haddr, hl0]
    have hstep :
        sDrain (m + 1) σ =
          sDrain m
            { σ with
                freeHd := inctag nd0.next
                hp := hRemove σ.hp f0 } := by
      rw [sDrain, hpops, hnx]
      simp only [haddr]
    set σ' : SS α :=
      { σ with freeHd := inctag nd0.next, hp := hRemove σ.hp f0 } with hσ'
    have hch' : chainB σ'.hp σ'.freeHd fr' = true := by
      show chainB (hRemove σ.hp f0) (inctag nd0.next) fr' = true
      rw [chainB_addr_congr _ (inctag nd0.next) nd0.next rfl]
      rw [chainB_hRemove_outside _ _ _ _ hf0]
      exact hch0
    obtain ⟨h1, h2, h3⟩ := ih σ' m hch' (List.nodup_cons.mp hnd).2
      (by simp at hlen; omega)
    rw [hstep]
    refine ⟨?_, h2, h3⟩
    rw [h1]
    show (hRemove σ.hp f0).filter _ = _
    rw [hRemove, List.filter_filter]
    apply List.filter_congr
    intro p _
    simp only [List.mem_cons, decide_not]
    by_cases h0 : p.1 = f0 <;> by_cases h1 : p.1 ∈ fr' <;>
      simp [h0, h1]

/-- C10: if a node allocation fails during construction of the public
lock-free stack, the constructor catches the exception, deletes the nodes
already pooled, and returns normally — no failure escapes (the result type
has no error channel), leaving a usable stack with an empty pool (fewer
than `k` pre-allocated nodes) and an empty LIFO. -/
theorem c10_stack_ctor_swallows (k f : Nat) (hf : f < k) :
    (sInitF Nat k f).hp = [] ∧
      (sInitF Nat k f).freeHd.addr = none ∧
      (sInitF Nat k f).stackHd.addr = none ∧
      (sInitF Nat k f).hp.length < k := by
  have herr := sProvisionF_error f k 0 (⟨nullTW, nullTW, [], 0⟩ : SS Nat) hf
  rw [Nat.zero_add] at herr
  have hsf : sInitF Nat k f =
      sDestroy (sProvision f (⟨nullTW, nullTW, [], 0⟩ : SS Nat)) := by
    rw [sInitF, herr]
  have h0 : SInv (⟨nullTW, nullTW, [], 0⟩ : SS Nat) [] [] :=
    ⟨rfl, rfl, by simp, fun j _ => rfl⟩
  obtain ⟨hinv, hstk, _, _, hlen, hcov⟩ := sProvision_inv f
    (⟨nullTW, nullTW, [], 0⟩ : SS Nat) [] [] h0
  set σp := sProvision f (⟨nullTW, nullTW, [], 0⟩ : SS Nat) with hσp
  have hfr : chainB σp.hp σp.freeHd (idsDesc 0 f) = true := by
    have := hinv.hfr
    simpa using this
  have hfnd : (idsDesc 0 f).Nodup := idsDesc_nodup 0 f
  have hfuel : (idsDesc 0 f).length ≤ σp.hp.length := by
    rw [idsDesc_length, hlen]
    simp
  obtain ⟨h1, h2, h3⟩ := sDrain_spec (idsDesc 0 f) σp σp.hp.length
    hfr hfnd hfuel
  have hnil : (sDrain σp.hp.length σp).hp = [] := by
    rw [h1]
    rw [List.filter_eq_nil_iff]
    intro p hp'
    rcases hcov p hp' with hlt | hrange
    · have hz : p.1 < 0 := hlt
      omega
    · have hr2 : p.1 < 0 + f := hrange.2
      have hmem : p.1 ∈ idsDesc 0 f := mem_idsDesc.mpr (by omega)
      simp [hmem]
  rw [hsf]
  show (sDrain (List.length σp.hp) σp).hp = [] ∧
    (sDrain (List.length σp.hp) σp).freeHd.addr = none ∧
    (sDrain (List.length σp.hp) σp).stackHd.addr = none ∧
    (sDrain (List.length σp.hp) σp).hp.length < k
  refine ⟨hnil, h2, ?_, ?_⟩
  · rw [h3, hstk]
    rfl
  · rw [hnil]
    simp
    omega

/-- Witness for `c10_stack_ctor_swallows` at `k = 2`, failure index 1. -/
theorem c10_witness :
    (sInitF Nat 2 1).hp = [] ∧
      (sInitF Nat 2 1).freeHd.addr = none ∧
      (sInitF Nat 2 1).stackHd.addr = none ∧
      (sInitF Nat 2 1).hp.length < 2 :=
  c10_stack_ctor_swallows 2 1 (by decide)

/-! ## Claim theorems: concrete computations -/

/-- C9: on the binary min-heap, pushing the sequence 15,14,…,1,0 and then
repeatedly reading `top()` and popping returns the values 0,1,…,15 in
increasing order. -/
theorem c9_heap_push_pop_ordered :
    popsTops 16 (List.foldl heapPush []
        [15, 14, 13, 12, 11, 10, 9, 8, 7, 6, 5, 4, 3, 2, 1, 0]) =
      [0, 1, 2, 3, 4, 5, 6, 7, 8, 9, 10, 11, 12, 13, 14, 15] := by
  decide

/-- C4, counterexample: a successful Treiber push does NOT install the pushed
node tagged with `tag(H) + 1`.  With head word `H = (node 0, tag 5)` and
pushed node `n = (node 1, tag 0)`, the claim predicts the installed word
`with_tag(n, tag(H)+1) = (node 1, tag 6)`, but the code
(`cas(head_, h, inctag(e))`) installs `(node 1, tag 1)`. -/
theorem c4_counterexample :
    (isPush [(0, (⟨0, nullTW⟩ : Node Nat)), (1, ⟨0, nullTW⟩)]
        ⟨some 0, 5⟩ ⟨some 1, 0⟩).2 ≠ tagWith ⟨some 1, 0⟩ (5 + 1) := by
  decide

/-- C4, amended: a successful push installs the pushed node `e` with *its
own* tag incremented (`inctag(e)`, i.e. `tag(e)+1 mod 2^16`), not
`tag(H)+1`; likewise pop installs the successor word with *its* tag
incremented (`inctag(next)`), not `tag(H)+1`.  Every successful head
mutation still changes the head word's tag field relative to the word it
installs over only through the installed word's own tag. -/
theorem c4_amended (hp : Heap Nat) (hd e : TW) (i : Nat)
    (hi : hd.addr = some i) :
    (isPush hp hd e).2 = inctag e ∧
      (isPush hp hd e).2.tag = (e.tag + 1) % TAG_MOD ∧
      isPop hp hd = some (hp, inctag (nextAt hp hd), hd) := by
  refine ⟨?_, ?_, ?_⟩
  · rcases e with ⟨ea, et⟩
    cases ea <;> rfl
  · rcases e with ⟨ea, et⟩
    cases ea <;> rfl
  · rcases hd with ⟨ha, ht⟩
    cases ha with
    | none => simp at hi
    | some j => rfl

/-- Witness for `c4_amended` at a concrete input. -/
theorem c4_amended_witness :
    (isPush ([] : Heap Nat) ⟨some 0, 0⟩ ⟨some 1, 3⟩).2 = inctag ⟨some 1, 3⟩ ∧
      (isPush ([] : Heap Nat) ⟨some 0, 0⟩ ⟨some 1, 3⟩).2.tag =
        (3 + 1) % TAG_MOD ∧
      isPop ([] : Heap Nat) ⟨some 0, 0⟩ =
        some ([], inctag (nextAt ([] : Heap Nat) ⟨some 0, 0⟩), ⟨some 0, 0⟩) :=
  c4_amended [] ⟨some 0, 0⟩ ⟨some 1, 3⟩ 0 rfl

/-- C1: evaluation of the three enqueue paths at a failing input (initial
capacity 1, the user value's copy/move assignment raises).
* `queue::push` (copy): the exception propagates, the node is returned to
  the pool (pool size 1, both nodes still allocated) — the claim holds here;
* `queue::emplace` (move): the exception propagates, but the node is
  `delete`d, not pooled — the pool stays empty and only 1 of the 2 allocated
  nodes remains, while `capacity_` still counts 2;
* `stack::emplace` on a pool-exhausted stack: the freshly allocated node is
  `delete`d AND the exception is swallowed — the function returns normally
  (no error channel exists in its type) with the stack unchanged. -/
theorem c1_emplace_discards_node :
    (raised (pushT (qInit Nat 1) 7 true) = true ∧
        (exState (pushT (qInit Nat 1) 7 true)).free.length = 1 ∧
        (exState (pushT (qInit Nat 1) 7 true)).hp.length = 2 ∧
        (exState (pushT (qInit Nat 1) 7 true)).capacity = 2) ∧
      (raised (emplaceT (qInit Nat 1) 7 true) = true ∧
        (exState (emplaceT (qInit Nat 1) 7 true)).free = [] ∧
        (exState (emplaceT (qInit Nat 1) 7 true)).hp.length = 1 ∧
        (exState (emplaceT (qInit Nat 1) 7 true)).capacity = 2) ∧
      ((sEmplaceT (sInit Nat 0) 7 true).hp = [] ∧
        (sEmplaceT (sInit Nat 0) 7 true).stackHd.addr = none) := by
  decide

/-- C2, counterexample: constructing with initial capacity `N = 1` leaves
1 node in total (the sentinel, popped back out of the just-provisioned
pool by `alloc_node`) and an empty free pool — not the `N + 1 = 2` nodes
(N pooled plus one additionally allocated sentinel) the claim states. -/
theorem c2_counterexample :
    (qInit Nat 1).hp.length = 1 ∧ (qInit Nat 1).free.length = 0 ∧
      ¬(qInit Nat 1).hp.length = 1 + 1 := by
  decide

/-- C6, counterexample: with initial capacity `C = 1` and `n = 0`, pushing
`C + n = 1` value already allocates a new node (the pool was left empty by
construction, the sentinel having been taken from it), so `capacity()`
becomes 2 — not the claimed `exactly n = 0` allocations. -/
theorem c6_counterexample :
    (qpush (qInit Nat 1) 5).capacity = 2 ∧
      ¬(qpush (qInit Nat 1) 5).capacity = 1 := by
  decide

/-- C7, counterexample: after a throwing `emplace` on a queue of initial
capacity 1, `capacity_` is 2 but the free pool is empty and the chain from
`head_` (sentinel included) has length 1: the claimed equality
`capacity = pool size + chain length` fails because the node was `delete`d
without decrementing `capacity_`. -/
theorem c7_counterexample :
    (exState (emplaceT (qInit Nat 1) 7 true)).capacity = 2 ∧
      (exState (emplaceT (qInit Nat 1) 7 true)).free.length +
          (walkQ (exState (emplaceT (qInit Nat 1) 7 true)).hp
            ((exState (emplaceT (qInit Nat 1) 7 true)).hp.length + 1)
            (exState (emplaceT (qInit Nat 1) 7 true)).head).length = 1 ∧
      ¬(exState (emplaceT (qInit Nat 1) 7 true)).capacity =
          (exState (emplaceT (qInit Nat 1) 7 true)).free.length +
            (walkQ (exState (emplaceT (qInit Nat 1) 7 true)).hp
              ((exState (emplaceT (qInit Nat 1) 7 true)).hp.length + 1)
              (exState (emplaceT (qInit Nat 1) 7 true)).head).length := by
  decide

end Mu
